import Mathlib

/-!
The transfer engine of `syncthing` (`s3.go`, `main.go`, `types.go`).

A shallow embedding of the host/sync engine: the staleness checks
(`shouldUpdateFile`, `shouldDownloadFile`), the planners (`uploadDirectory`,
`uploadSingleFile`, `downloadSingleObject`, `downloadMultipleObjects`), the
entry points (`Host`, `Sync`) and the bounded executor (`processOperations`).

Conventions of the embedding.

* Go strings are lists of characters (`Str`).
* `time.Time` values are points of a linearly ordered time line (`Int`);
  `t.After(u)` is `u < t`.
* The object store and the local file system are what the program observes of
  them: a record of functions for the store (`S3Client`), a record of functions
  over an abstract state for the operating system (`OS`), and the tree that
  `filepath.Walk` traverses (`Node`).
* `path/filepath` is modelled for a platform whose separator is `/`.
* `unicode.ToUpper`, the table behind `strings.ToUpper`, is a parameter
  (`upper`) of everything that normalises a key; the runs on concrete ASCII keys
  take `Char.toUpper` for it.
* `os.Stat(sourcePath)` and what `filepath.Walk` finds at `sourcePath` are
  separate inputs of `Host`: the first follows symbolic links, the second does
  not.
* The `fatih/color` helpers return their text; escape sequences are not modelled.
-/

namespace SyncThing

/-- Go strings. -/
abbrev Str := List Char

/-! ## Metadata and the two collaborators -/

/-- The part of `os.FileInfo` the engine reads. -/
structure FileInfo where
  Size : Int
  ModTime : Int
  IsDir : Bool
  deriving DecidableEq, Repr

/-- The part of `s3.HeadObjectOutput` the engine reads. -/
structure HeadObjectOutput where
  ContentLength : Int
  LastModified : Int
  deriving DecidableEq, Repr

/-- The part of `types.Object` the engine reads. -/
structure Object where
  Key : Str
  deriving DecidableEq, Repr

/-- The receiver `s *S3Client`, as the answers of the bucket to the two read
requests of the planners. An `error` is the request returning `err != nil`. -/
structure S3Client where
  HeadObject : Str → Except Str HeadObjectOutput
  ListObjectsV2 : Str → Except Str (List Object)

/-- Errors of `os.Stat`; `notExist` is the class recognised by `os.IsNotExist`. -/
inductive PathError where
  | notExist
  | other (msg : Str)
  deriving DecidableEq, Repr

/-- The function `os.IsNotExist`. -/
def IsNotExist : PathError → Bool
  | .notExist => true
  | .other _ => false

/-- The local file system as seen through `os.Stat` and `os.MkdirAll`, over an
abstract state `σ`. `MkdirAll` returns its error, if any, and the state it
leaves behind. -/
structure OS (σ : Type) where
  Stat : σ → Str → Except PathError FileInfo
  MkdirAll : σ → Str → Option Str × σ

/-- The method `Time.After`. -/
def After (t u : Int) : Bool := decide (u < t)

/-- The helper `color.YellowString`. -/
def YellowString (s : Str) : Str := s

/-- The helper `color.GreenString`. -/
def GreenString (s : Str) : Str := s

/-! ## Staleness checks -/

/-- The method `shouldUpdateFile` (s3.go 246-259). -/
def shouldUpdateFile (s : S3Client) (s3Key : Str) (localModTime : Int) : Bool × Str :=
  match s.HeadObject s3Key with
  | .error _ => (true, YellowString "object not found, uploading".toList)
  | .ok head =>
    let s3ModTime := head.LastModified
    if After localModTime s3ModTime then
      (true, YellowString "local file is newer, updating".toList)
    else
      (false, GreenString "S3 object is up-to-date, skipping".toList)

/-- The method `shouldDownloadFile` (s3.go 158-187). -/
def shouldDownloadFile {σ : Type} (s : S3Client) (os : OS σ) (w : σ)
    (s3Key : Str) (localPath : Str) : Bool × Str :=
  match s.HeadObject s3Key with
  | .error _ => (true, YellowString "failed to check remote object, downloading".toList)
  | .ok head =>
    match os.Stat w localPath with
    | .error err =>
      if IsNotExist err then
        (true, YellowString "local file does not exist, downloading".toList)
      else
        (true, YellowString "failed to check local file, downloading".toList)
    | .ok localInfo =>
      if localInfo.Size ≠ head.ContentLength then
        (true, YellowString "file sizes differ, downloading".toList)
      else
        let s3ModTime := head.LastModified
        if After s3ModTime localInfo.ModTime then
          (true, YellowString "remote file is newer, downloading".toList)
        else
          (false, GreenString "local file is up-to-date, skipping".toList)

/-! ## `strings` and `path/filepath` -/

/-- The function `strings.ToUpper`: every character of the text mapped through
`unicode.ToUpper`. The table of `unicode.ToUpper` is the parameter `upper`; on
the letters `a`-`z` and the other ASCII characters it is `Char.toUpper`. -/
def ToUpper (upper : Char → Char) (s : Str) : Str := s.map upper

/-- The function `strings.HasPrefix`. -/
def HasPrefix : Str → Str → Bool
  | _, [] => true
  | [], _ :: _ => false
  | c :: s, d :: p => c = d && HasPrefix s p

/-- The function `strings.TrimPrefix`. -/
def TrimPrefix (s p : Str) : Str :=
  if HasPrefix s p then s.drop p.length else s

/-- The function `strings.Cut` for the separator `/`: the text before and after
the first `/`, if there is one. -/
def Cut : Str → Option (Str × Str)
  | [] => none
  | c :: s =>
    if c = '/' then some ([], s)
    else match Cut s with
      | none => none
      | some (a, b) => some (c :: a, b)

/-- The function `strings.SplitN(s, "/", n)` for `n ≥ 0`. -/
def SplitN : Str → Nat → List Str
  | _, 0 => []
  | s, 1 => [s]
  | s, n + 2 =>
    match Cut s with
    | none => [s]
    | some (a, b) => a :: SplitN b (n + 1)

/-- The function `strings.Split(s, "/")`. -/
def Split : Str → List Str
  | [] => [[]]
  | c :: s =>
    if c = '/' then [] :: Split s
    else match Split s with
      | [] => [[c]]
      | a :: r => (c :: a) :: r

/-- The function `strings.Join(elems, "/")`. -/
def joinSlash : List Str → Str
  | [] => []
  | [a] => a
  | a :: b :: r => a ++ '/' :: joinSlash (b :: r)

/-- The path element `..`. -/
def dotdot : Str := ['.', '.']

/-- One element of the input of `filepath.Clean`, applied to the elements
written so far (`out`, last written first): empty elements and `.` are dropped,
`..` removes the last written element when there is one to remove, is dropped at
the root, and is kept in front of a relative path; any other element is
written. -/
def cleanStep (isRooted : Bool) (out : List Str) (seg : Str) : List Str :=
  if seg = [] ∨ seg = ['.'] then out
  else if seg = dotdot then
    match out with
    | [] => if isRooted then out else seg :: out
    | top :: rest =>
      if top ≠ dotdot then rest
      else if isRooted then out else seg :: out
  else seg :: out

/-- Whether a path starts at the root. -/
def rooted (path : Str) : Bool := path.head? = some '/'

/-- The elements of the cleaned form of a path, first element first. -/
def cleanElems (path : Str) : List Str :=
  ((Split path).foldl (cleanStep (rooted path)) []).reverse

/-- A cleaned path written out from its elements. -/
def render (isRooted : Bool) (elems : List Str) : Str :=
  if isRooted then '/' :: joinSlash elems
  else if elems = [] then ['.'] else joinSlash elems

/-- The function `filepath.Clean`: the shortest path equivalent to `path` by
purely lexical processing, element by element. -/
def Clean (path : Str) : Str := render (rooted path) (cleanElems path)

/-- The function `filepath.Join`: leading empty elements are ignored, the rest
is joined with `/` and cleaned; all elements empty gives the empty path. -/
def Join (elem : List Str) : Str :=
  match elem.dropWhile (fun e => e = []) with
  | [] => []
  | e :: r => Clean (joinSlash (e :: r))

/-- The longest common leading elements removed from two paths. -/
def dropCommon : List Str → List Str → List Str × List Str
  | a :: as, b :: bs => if a = b then dropCommon as bs else (a :: as, b :: bs)
  | as, bs => (as, bs)

/-- The function `filepath.Rel` on the cleaned elements of its arguments: `.`
for equal paths, an error when one path is rooted and the other is not or when
the base would have to be left through `..`, and otherwise one `..` for every
remaining element of the base followed by the remaining elements of the
target. -/
def Rel (basepath targpath : Str) : Except Str Str :=
  let base := cleanElems basepath
  let targ := cleanElems targpath
  if rooted basepath = rooted targpath ∧ base = targ then .ok ['.']
  else if rooted basepath ≠ rooted targpath then
    .error ("Rel: can't make ".toList ++ targpath ++ " relative to ".toList ++ basepath)
  else
    match dropCommon base targ with
    | (b, t) =>
      if b.head? = some dotdot then
        .error ("Rel: can't make ".toList ++ targpath ++ " relative to ".toList ++ basepath)
      else .ok (joinSlash (b.map (fun _ => dotdot) ++ t))

/-- The function `filepath.Base`. -/
def Base (path : Str) : Str :=
  if path = [] then ['.']
  else
    let stripped := path.reverse.dropWhile (fun c => c = '/')
    let last := (stripped.takeWhile (fun c => c ≠ '/')).reverse
    if last = [] then ['/'] else last

/-- The function `filepath.Dir`. -/
def Dir (path : Str) : Str :=
  Clean (path.reverse.dropWhile (fun c => c ≠ '/')).reverse

/-- The function `filepath.ToSlash`; the separator is `/`. -/
def ToSlash (path : Str) : Str := path

/-- The function `filepath.FromSlash`; the separator is `/`. -/
def FromSlash (path : Str) : Str := path

/-! ## The planner of `Host` -/

/-- The constant `syncBucketRoot` (types.go 36). -/
def syncBucketRoot : Str := "syncThing/".toList

/-- The constant `maxConcurrentOperations` (s3.go 22). -/
def maxConcurrentOperations : Nat := 5

/-- The struct `fileOperation` (s3.go 24-28). -/
structure fileOperation where
  localPath : Str
  s3Key : Str
  isUpdate : Bool
  deriving DecidableEq, Repr

/-- What a planner hands over once planning is done: a batch for
`processOperations`, one direct call of the transfer function, or nothing
(`return nil`). -/
inductive Action where
  | batch (operations : List fileOperation)
  | single (s3Key localPath : Str)
  | nothing
  deriving DecidableEq, Repr

/-- The arguments `(localPath, s3Key)` that `uploadFile(ctx, localPath, s3Key)`
(s3.go 261) receives when an action of `Host` is run. A batch is run by
`processOperations(ctx, operations, s.uploadFile)` (s3.go 111), which calls
`processFunc(ctx, op.s3Key, op.localPath)` once per operation (s3.go 339): the
remote key arrives as `localPath` and the local path as `s3Key`. The direct
call of `uploadSingleFile` is `uploadFile(ctx, sourcePath, s3Key)` (s3.go 126,
131). -/
def Action.uploadCalls : Action → List (Str × Str)
  | .batch operations => operations.map (fun op => (op.s3Key, op.localPath))
  | .single s3Key localPath => [(localPath, s3Key)]
  | .nothing => []

/-- The arguments `(s3Key, localPath)` that `downloadFile(ctx, s3Key, localPath)`
(s3.go 291) receives when an action of `Sync` is run: from `processOperations`
as `processFunc(ctx, op.s3Key, op.localPath)` (s3.go 226, 339), and from
`downloadSingleObject` as `downloadFile(ctx, objKey, destPath)` (s3.go 243). -/
def Action.downloadCalls : Action → List (Str × Str)
  | .batch operations => operations.map (fun op => (op.s3Key, op.localPath))
  | .single s3Key localPath => [(s3Key, localPath)]
  | .nothing => []

/-- The method `uploadFile` (s3.go 261-289), given the answers of `os.Open` and
of `PutObject`: the error it returns, or the object it has stored, as its key
and its body. -/
def uploadFile (Open : Str → Except Str Str) (PutObject : Str → Str → Option Str)
    (localPath s3Key : Str) : Except Str (Str × Str) :=
  match Open localPath with
  | .error err => .error ("open ".toList ++ localPath ++ ": ".toList ++ err)
  | .ok file =>
    match PutObject s3Key file with
    | some err => .error ("put object ".toList ++ s3Key ++ ": ".toList ++ err)
    | none => .ok (s3Key, file)

/-- The local tree as `os.Lstat` and the directory reads of `filepath.Walk`
find it: a non-directory with its size and modification time, a directory with
its entries in the order `Walk` visits them, an entry whose `Lstat` fails, and a
directory that cannot be read. -/
inductive Node where
  | file (size modTime : Int)
  | dir (entries : List (Str × Node))
  | noStat (err : Str)
  | unreadable (err : Str)

/-- What the planner of `Host` has accumulated: the slice `operations` and the
keys handed to `shouldUpdateFile` so far. -/
structure UploadPlan where
  operations : List fileOperation
  consulted : List Str
  deriving DecidableEq, Repr

/-- The walk function of `uploadDirectory` (s3.go 75-106), on the plan built so
far. -/
def uploadWalkFn (s : S3Client) (sourcePath key : Str) (updateExisting : Bool)
    (plan : UploadPlan) (path : Str) (info : Option FileInfo) (err : Option Str) :
    Except Str UploadPlan :=
  match err with
  | some e => .error e
  | none =>
    match info with
    | none => .error "invalid memory address or nil pointer dereference".toList
    | some info =>
      if info.IsDir then .ok plan
      else
        match Rel sourcePath path with
        | .error e => .error e
        | .ok rel =>
          let s3Key := key ++ "/".toList ++ ToSlash rel
          if updateExisting then
            let (update, _) := shouldUpdateFile s s3Key info.ModTime
            if update then
              .ok ⟨plan.operations ++ [⟨path, s3Key, true⟩], plan.consulted ++ [s3Key]⟩
            else
              .ok ⟨plan.operations, plan.consulted ++ [s3Key]⟩
          else
            .ok ⟨plan.operations ++ [⟨path, s3Key, false⟩], plan.consulted⟩

mutual
/-- The function `walk` of `path/filepath`, for a walk function that never
answers `SkipDir`: a non-directory is reported, a directory is reported and then
its entries are walked as `Join(path, name)`, and the first error ends the walk. -/
def walk {α : Type} (fn : α → Str → Option FileInfo → Option Str → Except Str α)
    (path : Str) : Node → α → Except Str α
  | .file size modTime, a => fn a path (some ⟨size, modTime, false⟩) none
  | .noStat err, a => fn a path none (some err)
  | .unreadable err, a => fn a path (some ⟨0, 0, true⟩) (some err)
  | .dir entries, a =>
    match fn a path (some ⟨0, 0, true⟩) none with
    | .error e => .error e
    | .ok a1 => walkEntries fn path entries a1
/-- The loop of `walk` over the names of a directory. -/
def walkEntries {α : Type} (fn : α → Str → Option FileInfo → Option Str → Except Str α)
    (path : Str) : List (Str × Node) → α → Except Str α
  | [], a => .ok a
  | (name, node) :: rest, a =>
    match walk fn (Join [path, name]) node a with
    | .error e => .error e
    | .ok a1 => walkEntries fn path rest a1
end

/-- The function `filepath.Walk`. -/
def Walk {α : Type} (root : Str) (tree : Node)
    (fn : α → Str → Option FileInfo → Option Str → Except Str α) (a : α) : Except Str α :=
  walk fn root tree a

/-- The method `uploadDirectory` (s3.go 73-112) up to its last line: the error
of the walk, or the plan whose `operations` are handed to `processOperations`
with `uploadFile`. -/
def uploadDirectory (s : S3Client) (tree : Node) (sourcePath key : Str)
    (updateExisting : Bool) : Except Str UploadPlan :=
  Walk sourcePath tree (uploadWalkFn s sourcePath key updateExisting) ⟨[], []⟩

/-- The method `uploadSingleFile` (s3.go 114-134): the error of `os.Stat`, or
the call of `uploadFile` it makes, if any, with the keys it consulted. `stat` is
the answer of `os.Stat(sourcePath)`. -/
def uploadSingleFile (s : S3Client) (stat : Except Str FileInfo) (sourcePath key : Str)
    (updateExisting : Bool) : Except Str (Action × List Str) :=
  match stat with
  | .error e => .error e
  | .ok info =>
    if updateExisting then
      let s3Key := key
      let (update, _) := shouldUpdateFile s s3Key info.ModTime
      if update then .ok (.single s3Key sourcePath, [s3Key])
      else .ok (.nothing, [s3Key])
    else
      let s3Key := key ++ "/".toList ++ Base sourcePath
      .ok (.single s3Key sourcePath, [])

/-- The method `Host` (s3.go 60-71): an error, or the action it runs together
with the keys whose remote metadata was consulted. `stat` is the answer of
`os.Stat(sourcePath)`, which follows symbolic links; `tree` is what
`filepath.Walk`, which does not follow them, finds at `sourcePath`. The calls of
`uploadFile` that running the action makes are `Action.uploadCalls`. -/
def Host (upper : Char → Char) (s : S3Client) (stat : Except Str FileInfo) (tree : Node)
    (sourcePath key : Str) (updateExisting : Bool) : Except Str (Action × List Str) :=
  let key := ToUpper upper key
  match stat with
  | .error e => .error ("stat ".toList ++ sourcePath ++ ": ".toList ++ e)
  | .ok info =>
    if info.IsDir then
      match uploadDirectory s tree sourcePath key updateExisting with
      | .error e => .error e
      | .ok plan => .ok (.batch plan.operations, plan.consulted)
    else uploadSingleFile s stat sourcePath key updateExisting

/-- The `host` case of `main` (main.go 148-150). -/
def mainHost (upper : Char → Char) (s : S3Client) (stat : Except Str FileInfo) (tree : Node)
    (sourcePath key : Str) (updateExisting : Bool) : Except Str (Action × List Str) :=
  Host upper s stat tree sourcePath (syncBucketRoot ++ key) updateExisting

/-! ## The planner of `Sync` -/

/-- The ways `Sync` ends without handing anything over: its `fmt.Errorf` values
and the run-time panic of an index out of range.

* `listObjects`: `"list objects: %w"`
* `noObjectsFound`: `"no objects found with prefix %q"`
* `createDestDirectory`: `"create dest directory: %w"`
* `destinationNotDirectory`: `"destination %q must be a directory for multiple objects"`
* `mkdirFor`: `"mkdir for %s: %w"`
* `indexOutOfRange`: `panic: runtime error: index out of range [1] with length 1` -/
inductive Failure where
  | listObjects (cause : Str)
  | noObjectsFound (key : Str)
  | createDestDirectory (cause : Str)
  | destinationNotDirectory (destPath : Str)
  | mkdirFor (localPath cause : Str)
  | indexOutOfRange
  deriving DecidableEq, Repr

/-- A run of the planner of `Sync`: the state of the local file system it
leaves, the arguments of its `os.MkdirAll` calls in order, and its failure or
the action it hands over. -/
structure Outcome (σ : Type) where
  world : σ
  mkdirs : List Str
  result : Except Failure Action

/-- The local path of a listed object (s3.go 200-204); `none` is the index `[1]`
out of range. -/
def objectLocalPath (upper : Char → Char) (destPath objKey : Str) : Option Str :=
  let rel := TrimPrefix objKey (ToUpper upper syncBucketRoot)
  let rel := TrimPrefix rel "/".toList
  match (SplitN rel 2)[1]? with
  | none => none
  | some rel => some (Join [destPath, FromSlash rel])

/-- The loop of `downloadMultipleObjects` (s3.go 198-219), from the state, the
`MkdirAll` calls and the `operations` accumulated so far. -/
def downloadLoop {σ : Type} (upper : Char → Char) (s : S3Client) (os : OS σ)
    (destPath : Str) :
    List Object → σ → List Str → List fileOperation →
      σ × List Str × Except Failure (List fileOperation)
  | [], w, mkdirs, operations => (w, mkdirs, .ok operations)
  | obj :: rest, w, mkdirs, operations =>
    let objKey := obj.Key
    match objectLocalPath upper destPath objKey with
    | none => (w, mkdirs, .error .indexOutOfRange)
    | some localPath =>
      match os.MkdirAll w (Dir localPath) with
      | (some err, w1) => (w1, mkdirs ++ [Dir localPath], .error (.mkdirFor localPath err))
      | (none, w1) =>
        let (shouldDownload, _) := shouldDownloadFile s os w1 objKey localPath
        if shouldDownload then
          downloadLoop upper s os destPath rest w1 (mkdirs ++ [Dir localPath])
            (operations ++ [⟨localPath, objKey, false⟩])
        else
          downloadLoop upper s os destPath rest w1 (mkdirs ++ [Dir localPath]) operations

/-- The end of `downloadMultipleObjects` (s3.go 221-226). -/
def handOver {σ : Type} : σ × List Str × Except Failure (List fileOperation) → Outcome σ
  | (w, mkdirs, .error f) => ⟨w, mkdirs, .error f⟩
  | (w, mkdirs, .ok operations) =>
    if operations.length = 0 then ⟨w, mkdirs, .ok .nothing⟩
    else ⟨w, mkdirs, .ok (.batch operations)⟩

/-- The method `downloadMultipleObjects` (s3.go 189-227). -/
def downloadMultipleObjects {σ : Type} (upper : Char → Char) (s : S3Client) (os : OS σ) (w : σ)
    (objects : List Object) (destPath : Str) (destInfo : Option FileInfo) : Outcome σ :=
  match destInfo with
  | none =>
    match os.MkdirAll w destPath with
    | (some err, w1) => ⟨w1, [destPath], .error (.createDestDirectory err)⟩
    | (none, w1) => handOver (downloadLoop upper s os destPath objects w1 [destPath] [])
  | some info =>
    if !info.IsDir then ⟨w, [], .error (.destinationNotDirectory destPath)⟩
    else handOver (downloadLoop upper s os destPath objects w [] [])

/-- The method `downloadSingleObject` (s3.go 229-244). -/
def downloadSingleObject {σ : Type} (s : S3Client) (os : OS σ) (w : σ)
    (obj : Object) (destPath : Str) (destInfo : Option FileInfo) : Outcome σ :=
  let objKey := obj.Key
  let destPath :=
    match destInfo with
    | some info => if info.IsDir then Join [destPath, Base objKey] else destPath
    | none => destPath
  let (shouldDownload, _) := shouldDownloadFile s os w objKey destPath
  if !shouldDownload then ⟨w, [], .ok .nothing⟩
  else ⟨w, [], .ok (.single objKey destPath)⟩

/-- The method `Sync` (s3.go 137-156). -/
def Sync {σ : Type} (upper : Char → Char) (s : S3Client) (os : OS σ) (w : σ)
    (key destPath : Str) : Outcome σ :=
  let key := ToUpper upper key
  match s.ListObjectsV2 key with
  | .error err => ⟨w, [], .error (.listObjects err)⟩
  | .ok contents =>
    if contents.length = 0 then ⟨w, [], .error (.noObjectsFound key)⟩
    else
      let destInfo := (os.Stat w destPath).toOption
      match contents with
      | [obj] => downloadSingleObject s os w obj destPath destInfo
      | _ => downloadMultipleObjects upper s os w contents destPath destInfo

/-- The `sync` case of `main` (main.go 151-152). -/
def mainSync {σ : Type} (upper : Char → Char) (s : S3Client) (os : OS σ) (w : σ)
    (key destPath : Str) : Outcome σ :=
  Sync upper s os w (syncBucketRoot ++ key) destPath

/-! ## The executor -/

/-- Where the goroutine of one operation stands (s3.go 334-342): before
`semaphore <- struct{}{}`, inside `processFunc`, after `processFunc` has
returned and its error, if any, was sent, and after the deferred `<-semaphore`. -/
inductive Phase where
  | waiting
  | running
  | returned
  | done
  deriving DecidableEq, Repr

/-- The shared state of `processOperations`: the phase of every goroutine, the
number of values in the channel `semaphore`, the errors sent on `errChan` in
order, and the goroutines whose call of `processFunc` has started, in order. -/
structure Exec where
  phases : List Phase
  semaphore : Nat
  errChan : List Str
  calls : List Nat
  deriving DecidableEq, Repr

/-- The state after the loop of s3.go 332-343 has started every goroutine. -/
def Exec.start (operations : List fileOperation) : Exec :=
  ⟨operations.map (fun _ => Phase.waiting), 0, [], []⟩

/-- The error sent on `errChan` (s3.go 340). -/
def wrapError (op : fileOperation) (err : Str) : Str :=
  "failed to process ".toList ++ op.localPath ++ ": ".toList ++ err

/-- The next step of goroutine `i`, if it can take one. The send on `semaphore`
waits while the channel holds `maxConcurrentOperations` values; the send on
`errChan` never waits, the channel has room for every operation.
`processFunc i s3Key localPath` is the result of the call that goroutine `i`
makes: `none` for `nil`, `some err` for an error. -/
def step (operations : List fileOperation) (processFunc : Nat → Str → Str → Option Str)
    (st : Exec) (i : Nat) : Option Exec :=
  match operations[i]?, st.phases[i]? with
  | some _, some .waiting =>
    if st.semaphore < maxConcurrentOperations then
      some ⟨st.phases.set i .running, st.semaphore + 1, st.errChan, st.calls ++ [i]⟩
    else none
  | some op, some .running =>
    match processFunc i op.s3Key op.localPath with
    | none => some ⟨st.phases.set i .returned, st.semaphore, st.errChan, st.calls⟩
    | some err =>
      some ⟨st.phases.set i .returned, st.semaphore,
        st.errChan ++ [wrapError op err], st.calls⟩
  | some _, some .returned =>
    some ⟨st.phases.set i .done, st.semaphore - 1, st.errChan, st.calls⟩
  | _, _ => none

/-- The goroutines scheduled one after the other; a goroutine that cannot take
a step when scheduled is passed over. -/
def run (operations : List fileOperation) (processFunc : Nat → Str → Str → Option Str) :
    Exec → List Nat → Exec
  | st, [] => st
  | st, i :: schedule =>
    match step operations processFunc st i with
    | some st1 => run operations processFunc st1 schedule
    | none => run operations processFunc st schedule

/-- Whether `wg.Wait()` returns: every goroutine is done. -/
def Exec.finished (st : Exec) : Bool := st.phases.all (fun p => p = Phase.done)

/-- The verb `%v` on a slice of errors. -/
def formatErrors : List Str → Str
  | [] => []
  | [e] => e
  | e :: f :: r => e ++ ' ' :: formatErrors (f :: r)

/-- The end of `processOperations` (s3.go 351-360) on the errors received. -/
def collect (errs : List Str) : Option Str :=
  if errs.length > 0 then
    some ("multiple errors occurred: ".toList ++ '[' :: formatErrors errs ++ [']'])
  else none

/-- The method `processOperations` (s3.go 327-361) under a schedule of its
goroutines: `none` while some goroutine has not finished, `some r` when the
function returns `r`. -/
def processOperations (operations : List fileOperation)
    (processFunc : Nat → Str → Str → Option Str) (schedule : List Nat) : Option (Option Str) :=
  let st := run operations processFunc (Exec.start operations) schedule
  if st.finished then some (collect st.errChan) else none

/-! ## The tree enumeration of the specification -/

/-- A name a directory read can return: not empty, without `/`, and neither `.`
nor `..`. -/
def normalName (name : Str) : Bool :=
  decide (name ≠ [] ∧ '/' ∉ name ∧ name ≠ ['.'] ∧ name ≠ dotdot)

mutual
/-- Every name in the tree is one a directory read can return. -/
def validNode : Node → Bool
  | .dir entries => validEntries entries
  | _ => true
/-- Every name in the entries, at any depth, is one a directory read can return. -/
def validEntries : List (Str × Node) → Bool
  | [] => true
  | (name, node) :: rest => normalName name && validNode node && validEntries rest
end

mutual
/-- No directory of the tree lists a name twice. -/
def distinctNode : Node → Bool
  | .dir entries => distinctEntries entries
  | _ => true
/-- No directory in the entries, this one included, lists a name twice. -/
def distinctEntries : List (Str × Node) → Bool
  | [] => true
  | (name, node) :: rest =>
    decide (name ∉ rest.map Prod.fst) && distinctNode node && distinctEntries rest
end

mutual
/-- The Tree Enumerator of the specification: every non-directory under a node,
with its relative path as a list of names and its metadata, in the order of the
entries; `rel` is the relative path of the node itself. A failure anywhere in
the tree fails the whole enumeration. -/
def enumerate (rel : List Str) : Node → Except Str (List (List Str × FileInfo))
  | .file size modTime => .ok [(rel, ⟨size, modTime, false⟩)]
  | .dir entries => enumerateEntries rel entries
  | .noStat err => .error err
  | .unreadable err => .error err
/-- The enumeration of the entries of the directory with relative path `rel`. -/
def enumerateEntries (rel : List Str) :
    List (Str × Node) → Except Str (List (List Str × FileInfo))
  | [] => .ok []
  | (name, node) :: rest =>
    match enumerate (rel ++ [name]) node with
    | .error e => .error e
    | .ok files =>
      match enumerateEntries rel rest with
      | .error e => .error e
      | .ok more => .ok (files ++ more)
end

/-- The path `Walk` builds for the relative path `names` under `root`: one
`Join` per name. -/
def walkPath (root : Str) (names : List Str) : Str :=
  names.foldl (fun path name => Join [path, name]) root

/-- The operation the specification gives an enumerated file. -/
def uploadOperation (sourcePath key : Str) (replaceExisting : Bool)
    (file : List Str × FileInfo) : fileOperation :=
  ⟨walkPath sourcePath file.1, key ++ "/".toList ++ joinSlash file.1, replaceExisting⟩

/-- The batch the specification gives an enumeration: every file when
`replaceExisting` is false, the files the upload check wants transferred when it
is true. -/
def uploadBatch (s : S3Client) (sourcePath key : Str) (replaceExisting : Bool)
    (files : List (List Str × FileInfo)) : List fileOperation :=
  (files.filter (fun file => !replaceExisting ||
      (shouldUpdateFile s (key ++ "/".toList ++ joinSlash file.1) file.2.ModTime).1)).map
    (uploadOperation sourcePath key replaceExisting)

/-- The keys whose remote metadata the specification has the planner look up:
none when `replaceExisting` is false, the key of every enumerated file when it
is true. -/
def uploadConsulted (key : Str) (replaceExisting : Bool)
    (files : List (List Str × FileInfo)) : List Str :=
  if replaceExisting then files.map (fun file => key ++ "/".toList ++ joinSlash file.1)
  else []

/-! ## Auxiliary predicates -/

/-- The shape of what `Clean` has written, last element first: names, on top of
a run of `..` that is empty for a rooted path. -/
def StackOK (r : Bool) (out : List Str) : Prop :=
  ∃ k ns, out = ns ++ List.replicate k dotdot ∧
    (∀ n ∈ ns, normalName n = true) ∧ (r = true → k = 0)

/-- A plan extended by what the specification gives the enumerated `files`. -/
def UploadPlan.extend (plan : UploadPlan) (s : S3Client) (sourcePath key : Str)
    (replaceExisting : Bool) (files : List (List Str × FileInfo)) : UploadPlan :=
  ⟨plan.operations ++ uploadBatch s sourcePath key replaceExisting files,
    plan.consulted ++ uploadConsulted key replaceExisting files⟩

/-- The operation `downloadMultipleObjects` builds for a listed object, when its
local path is defined. -/
def downloadOperation (upper : Char → Char) (destPath : Str) (obj : Object) :
    Option fileOperation :=
  (objectLocalPath upper destPath obj.Key).map (fun localPath => ⟨localPath, obj.Key, false⟩)

/-! ## Collaborators for concrete runs -/

/-- A bucket holding one object per key of `keys`, each of `size` bytes and
modified at `modified`. -/
def bucketOf (keys : List Str) (size modified : Int) : S3Client :=
  ⟨fun key => if key ∈ keys then .ok ⟨size, modified⟩ else .error "NotFound".toList,
    fun p => .ok ((keys.filter (fun key => HasPrefix key p)).map Object.mk)⟩

/-- The answers of `os.Open` on a disk holding the given files, each with its
path and its content. -/
def diskOf (files : List (Str × Str)) (path : Str) : Except Str Str :=
  match files.lookup path with
  | some content => .ok content
  | none => .error "no such file or directory".toList

/-- A transfer method, `s.uploadFile` or `s.downloadFile`, passed to
`processOperations` as `processFunc`: it is applied to the two strings
`processOperations` hands it, in that order, and its error is what counts. -/
def asProcessFunc {α : Type} (f : Str → Str → Except Str α) : Nat → Str → Str → Option Str :=
  fun _ first second =>
    match f first second with
    | .error err => some err
    | .ok _ => none

/-- A local file system that holds directories only, given by their paths:
`Stat` finds the directories made so far and nothing else, `MkdirAll` makes its
argument. -/
def dirsOnly : OS (List Str) :=
  ⟨fun w path => if path ∈ w then .ok ⟨0, 0, true⟩ else .error .notExist,
    fun w path => (none, path :: w)⟩

/-! ## The executor: what its state means -/

/-- A goroutine holds a slot of the semaphore: it has sent and not yet received. -/
def Phase.holding : Phase → Bool
  | .running => true
  | .returned => true
  | _ => false

/-- The call of `processFunc` of a goroutine has started. -/
def Phase.started : Phase → Bool
  | .waiting => false
  | _ => true

/-- The call of `processFunc` of a goroutine has returned. -/
def Phase.sent : Phase → Bool
  | .returned => true
  | .done => true
  | _ => false

/-- The steps a goroutine still has to take. -/
def Phase.remaining : Phase → Nat
  | .waiting => 3
  | .running => 2
  | .returned => 1
  | .done => 0

/-- The steps all goroutines together still have to take. -/
def Exec.remaining (st : Exec) : Nat := (st.phases.map Phase.remaining).sum

/-- The entry of the aggregate error for operation `i`: none when its call
succeeds, `failed to process <localPath>: <cause>` when it fails. -/
def failureOf (operations : List fileOperation) (processFunc : Nat → Str → Str → Option Str)
    (i : Nat) : Option Str :=
  match operations[i]? with
  | none => none
  | some op => (processFunc i op.s3Key op.localPath).map (wrapError op)

/-- The entries of all failing operations, in the order of the batch. -/
def failures (operations : List fileOperation)
    (processFunc : Nat → Str → Str → Option Str) : List Str :=
  (List.range operations.length).filterMap (failureOf operations processFunc)

/-- What holds of every state `processOperations` reaches: one phase per
operation; the semaphore holds one value per goroutine holding a slot, at most
`maxConcurrentOperations`; the started calls are those of the goroutines past
waiting, each once; the errors sent are those of the failing calls that have
returned, each once. -/
structure Inv (operations : List fileOperation)
    (processFunc : Nat → Str → Str → Option Str) (st : Exec) : Prop where
  len : st.phases.length = operations.length
  sem : st.semaphore = st.phases.countP Phase.holding
  bound : st.semaphore ≤ maxConcurrentOperations
  calls : st.calls.Perm ((List.range operations.length).filterMap
    (fun i => if (st.phases.getD i .waiting).started then some i else none))
  errs : st.errChan.Perm ((List.range operations.length).filterMap
    (fun i => if (st.phases.getD i .waiting).sent then failureOf operations processFunc i
      else none))
/-! ## Staleness checks: theorems -/

/-- C1. `shouldUpdateFile` answers transfer=true when the metadata lookup fails
(the key is absent), transfer=true when the object exists and the local
modification time is strictly after the remote one, and transfer=false when the
object exists and the local time is equal to or before the remote one. -/
theorem shouldUpdateFile_decision (s : S3Client) (s3Key : Str) (localModTime : Int) :
    (∀ e, s.HeadObject s3Key = .error e → (shouldUpdateFile s s3Key localModTime).1 = true) ∧
    (∀ head, s.HeadObject s3Key = .ok head → head.LastModified < localModTime →
      (shouldUpdateFile s s3Key localModTime).1 = true) ∧
    (∀ head, s.HeadObject s3Key = .ok head → localModTime ≤ head.LastModified →
      (shouldUpdateFile s s3Key localModTime).1 = false) := by
  refine ⟨?_, ?_, ?_⟩
  · intro e he
    simp [shouldUpdateFile, he]
  · intro head hh hlt
    simp [shouldUpdateFile, hh, After, hlt]
  · intro head hh hle
    have : ¬ head.LastModified < localModTime := not_lt.mpr hle
    simp [shouldUpdateFile, hh, After, this]

/-- C2. With both metadata available, `shouldDownloadFile` answers transfer=true
whenever the sizes differ, whatever the two timestamps are, and with equal sizes
it answers transfer=true exactly when the remote modification time is strictly
after the local one. -/
theorem shouldDownloadFile_decision {σ : Type} (s : S3Client) (os : OS σ) (w : σ)
    (s3Key localPath : Str) (head : HeadObjectOutput) (localInfo : FileInfo)
    (hhead : s.HeadObject s3Key = .ok head)
    (hstat : os.Stat w localPath = .ok localInfo) :
    (localInfo.Size ≠ head.ContentLength →
      (shouldDownloadFile s os w s3Key localPath).1 = true) ∧
    (localInfo.Size = head.ContentLength →
      ((shouldDownloadFile s os w s3Key localPath).1 = true ↔
        localInfo.ModTime < head.LastModified)) := by
  constructor
  · intro hne
    simp [shouldDownloadFile, hhead, hstat, hne]
  · intro heq
    by_cases hlt : localInfo.ModTime < head.LastModified
    · simp [shouldDownloadFile, hhead, hstat, heq, After, hlt]
    · simp [shouldDownloadFile, hhead, hstat, heq, After, hlt]


/-- C1, at an object modified at 100 and a local file modified at 200. -/
theorem shouldUpdateFile_decision_witness :
    (shouldUpdateFile (bucketOf ["K".toList] 5 100) "K".toList 200).1 = true :=
  (shouldUpdateFile_decision (bucketOf ["K".toList] 5 100) "K".toList 200).2.1 ⟨5, 100⟩ rfl
    (by decide)

/-- C2, at a remote object of 7 bytes and a local file of 5 bytes that is the
newer of the two. -/
theorem shouldDownloadFile_decision_witness :
    (shouldDownloadFile (bucketOf ["K".toList] 7 100)
        (⟨fun _ _ => .ok ⟨5, 200, false⟩, fun w _ => (none, w)⟩ : OS Unit) ()
        "K".toList "k.txt".toList).1 = true :=
  (shouldDownloadFile_decision (bucketOf ["K".toList] 7 100)
    (⟨fun _ _ => .ok ⟨5, 200, false⟩, fun w _ => (none, w)⟩ : OS Unit) ()
    "K".toList "k.txt".toList ⟨7, 100⟩ ⟨5, 200, false⟩ rfl rfl).1 (by decide)

/-! ## Lemmas on `strings` -/

theorem Split_ne_nil (s : Str) : Split s ≠ [] := by
  induction s with
  | nil => simp [Split]
  | cons c s ih =>
    unfold Split
    split
    · simp
    · split <;> simp

theorem Split_append (a b : Str) : Split (a ++ '/' :: b) = Split a ++ Split b := by
  induction a with
  | nil => simp [Split]
  | cons c a ih =>
    by_cases hc : c = '/'
    · simp [Split, hc, ih]
    · simp only [List.cons_append, Split, hc, if_false, List.append_eq]
      rw [ih]
      cases h : Split a with
      | nil => exact absurd h (Split_ne_nil a)
      | cons x r => simp

theorem Split_slashfree (s : Str) : ∀ e ∈ Split s, '/' ∉ e := by
  induction s with
  | nil => simp [Split]
  | cons c s ih =>
    by_cases hc : c = '/'
    · simp only [Split, hc, if_true]
      intro e he
      rcases List.mem_cons.1 he with h | h
      · simp [h]
      · exact ih e h
    · simp only [Split, hc, if_false]
      cases h : Split s with
      | nil => exact absurd h (Split_ne_nil s)
      | cons x r =>
        rw [h] at ih
        intro e he
        rcases List.mem_cons.1 he with h1 | h1
        · subst h1
          have hx := ih x (List.mem_cons_self _ _)
          simp only [List.mem_cons, not_or]
          exact ⟨fun h2 => hc h2.symm, hx⟩
        · exact ih e (List.mem_cons_of_mem _ h1)

theorem Split_of_not_mem (s : Str) (h : '/' ∉ s) : Split s = [s] := by
  induction s with
  | nil => simp [Split]
  | cons c s ih =>
    simp only [List.mem_cons, not_or] at h
    have hc : c ≠ '/' := fun h2 => h.1 h2.symm
    simp [Split, hc, ih h.2]

theorem Split_joinSlash (es : List Str) (hne : es ≠ []) (hfree : ∀ e ∈ es, '/' ∉ e) :
    Split (joinSlash es) = es := by
  induction es with
  | nil => exact absurd rfl hne
  | cons a r ih =>
    cases r with
    | nil => simpa [joinSlash] using Split_of_not_mem a (hfree a (List.mem_cons_self _ _))
    | cons b r =>
      have h1 := Split_of_not_mem a (hfree a (List.mem_cons_self _ _))
      have h2 := ih (by simp) (fun e he => hfree e (List.mem_cons_of_mem _ he))
      simp [joinSlash, Split_append, h1, h2]

theorem joinSlash_Split (s : Str) : joinSlash (Split s) = s := by
  induction s with
  | nil => simp [Split, joinSlash]
  | cons c s ih =>
    by_cases hc : c = '/'
    · simp only [Split, hc, if_true]
      cases h : Split s with
      | nil => exact absurd h (Split_ne_nil s)
      | cons x r =>
        rw [h] at ih
        simp [joinSlash, ih]
    · simp only [Split, hc, if_false]
      cases h : Split s with
      | nil => exact absurd h (Split_ne_nil s)
      | cons x r =>
        rw [h] at ih
        cases r with
        | nil => simpa [joinSlash] using ih
        | cons y r =>
          simp only [joinSlash] at ih ⊢
          simp [← ih]

theorem joinSlash_injective (es fs : List Str) (hes : es ≠ []) (hfs : fs ≠ [])
    (he : ∀ e ∈ es, '/' ∉ e) (hf : ∀ e ∈ fs, '/' ∉ e)
    (h : joinSlash es = joinSlash fs) : es = fs := by
  rw [← Split_joinSlash es hes he, ← Split_joinSlash fs hfs hf, h]

theorem normalName_iff (n : Str) :
    normalName n = true ↔ n ≠ [] ∧ '/' ∉ n ∧ n ≠ ['.'] ∧ n ≠ dotdot := by
  simp [normalName]

theorem HasPrefix_append (p s : Str) : HasPrefix (p ++ s) p = true := by
  induction p with
  | nil => cases s <;> simp [HasPrefix]
  | cons c p ih => simp [HasPrefix, ih]

theorem TrimPrefix_append (p s : Str) : TrimPrefix (p ++ s) p = s := by
  simp [TrimPrefix, HasPrefix_append]

theorem Cut_append (a b : Str) (h : '/' ∉ a) : Cut (a ++ '/' :: b) = some (a, b) := by
  induction a with
  | nil => simp [Cut]
  | cons c a ih =>
    simp only [List.mem_cons, not_or] at h
    have hc : c ≠ '/' := fun h2 => h.1 h2.symm
    simp [Cut, hc, ih h.2]

theorem Cut_of_not_mem (a : Str) (h : '/' ∉ a) : Cut a = none := by
  induction a with
  | nil => simp [Cut]
  | cons c a ih =>
    simp only [List.mem_cons, not_or] at h
    have hc : c ≠ '/' := fun h2 => h.1 h2.symm
    simp [Cut, hc, ih h.2]

theorem ToUpper_append (upper : Char → Char) (a b : Str) :
    ToUpper upper (a ++ b) = ToUpper upper a ++ ToUpper upper b := by
  simp [ToUpper]


/-! ## Lemmas on `filepath.Clean` -/

theorem cleanStep_normal (r : Bool) (out : List Str) (n : Str) (h : normalName n = true) :
    cleanStep r out n = n :: out := by
  obtain ⟨h1, _, h3, h4⟩ := (normalName_iff n).1 h
  simp [cleanStep, h1, h3, h4]

theorem cleanStep_skip (r : Bool) (out : List Str) (seg : Str) (h : seg = [] ∨ seg = ['.']) :
    cleanStep r out seg = out := by
  simp [cleanStep, h]

theorem dotdot_not_normal : normalName dotdot = false := by decide

theorem dotdot_slashfree : '/' ∉ dotdot := by decide

theorem StackOK_nil (r : Bool) : StackOK r [] :=
  ⟨0, [], by simp, by simp, fun _ => rfl⟩

theorem StackOK_slashfree {r : Bool} {out : List Str} (h : StackOK r out) :
    ∀ e ∈ out, '/' ∉ e := by
  obtain ⟨k, ns, rfl, hns, _⟩ := h
  intro e he
  rcases List.mem_append.1 he with h1 | h1
  · exact ((normalName_iff e).1 (hns e h1)).2.1
  · rw [List.eq_of_mem_replicate h1]
    exact dotdot_slashfree

theorem StackOK_push {r : Bool} {out : List Str} (n : Str) (hn : normalName n = true)
    (h : StackOK r out) : StackOK r (n :: out) := by
  obtain ⟨k, ns, rfl, hns, hk⟩ := h
  refine ⟨k, n :: ns, by simp, ?_, hk⟩
  intro m hm
  rcases List.mem_cons.1 hm with h1 | h1
  · rw [h1]; exact hn
  · exact hns m h1

theorem StackOK_step {r : Bool} {out : List Str} (seg : Str) (hseg : '/' ∉ seg)
    (h : StackOK r out) : StackOK r (cleanStep r out seg) := by
  by_cases h1 : seg = [] ∨ seg = ['.']
  · rw [cleanStep_skip r out seg h1]; exact h
  · by_cases h2 : seg = dotdot
    · subst h2
      obtain ⟨k, ns, rfl, hns, hk⟩ := h
      cases ns with
      | nil =>
        cases k with
        | zero =>
          cases r
          · exact ⟨1, [], by simp [cleanStep, dotdot], by simp, by simp⟩
          · exact ⟨0, [], by simp [cleanStep, dotdot], by simp, by simp⟩
        | succ k =>
          cases r
          · refine ⟨k + 2, [], ?_, by simp, by simp⟩
            simp [cleanStep, dotdot, List.replicate_succ]
          · exact absurd (hk rfl) (by simp)
      | cons n ns =>
        have hn : normalName n = true := hns n (List.mem_cons_self _ _)
        have hne : n ≠ dotdot := ((normalName_iff n).1 hn).2.2.2
        refine ⟨k, ns, ?_, fun m hm => hns m (List.mem_cons_of_mem _ hm), hk⟩
        simp [cleanStep, dotdot] at hne ⊢
        simp [hne]
    · have hn : normalName seg = true := by
        rw [normalName_iff]
        push_neg at h1
        exact ⟨h1.1, hseg, h1.2, h2⟩
      rw [cleanStep_normal r out seg hn]
      exact StackOK_push seg hn h

theorem StackOK_foldl {r : Bool} (segs : List Str) (hsegs : ∀ e ∈ segs, '/' ∉ e) :
    ∀ out : List Str, StackOK r out → StackOK r (segs.foldl (cleanStep r) out) := by
  induction segs with
  | nil => intro out h; exact h
  | cons seg segs ih =>
    intro out h
    simp only [List.foldl_cons]
    exact ih (fun e he => hsegs e (List.mem_cons_of_mem _ he)) _
      (StackOK_step seg (hsegs seg (List.mem_cons_self _ _)) h)

theorem cleanElems_stack (path : Str) : StackOK (rooted path) (cleanElems path).reverse := by
  simp only [cleanElems, List.reverse_reverse]
  exact StackOK_foldl _ (Split_slashfree path) [] (StackOK_nil _)

theorem foldl_normal (r : Bool) (ns : List Str) (hns : ∀ n ∈ ns, normalName n = true) :
    ∀ out : List Str, ns.foldl (cleanStep r) out = ns.reverse ++ out := by
  induction ns with
  | nil => intro out; simp
  | cons n ns ih =>
    intro out
    simp only [List.foldl_cons]
    rw [cleanStep_normal r out n (hns n (List.mem_cons_self _ _)),
      ih (fun m hm => hns m (List.mem_cons_of_mem _ hm))]
    simp

theorem foldl_dots (k : Nat) :
    ∀ j : Nat, (List.replicate k dotdot).foldl (cleanStep false) (List.replicate j dotdot) =
      List.replicate (j + k) dotdot := by
  induction k with
  | zero => intro j; simp
  | succ k ih =>
    intro j
    have hstep : cleanStep false (List.replicate j dotdot) dotdot =
        List.replicate (j + 1) dotdot := by
      cases j with
      | zero => simp [cleanStep, dotdot]
      | succ j => simp [cleanStep, dotdot, List.replicate_succ]
    simp only [List.replicate_succ, List.foldl_cons]
    rw [hstep, ih (j + 1)]
    congr 1
    omega

theorem foldl_stack {r : Bool} {out : List Str} (h : StackOK r out) :
    out.reverse.foldl (cleanStep r) [] = out := by
  obtain ⟨k, ns, rfl, hns, hk⟩ := h
  have hrev : ∀ n ∈ ns.reverse, normalName n = true := fun n hn => hns n (List.mem_reverse.1 hn)
  rw [List.reverse_append, List.foldl_append, List.reverse_replicate]
  cases r
  · have := foldl_dots k 0
    simp only [List.replicate_zero, Nat.zero_add] at this
    rw [this, foldl_normal false _ hrev]
    simp
  · have hk0 : k = 0 := hk rfl
    subst hk0
    simp only [List.replicate_zero, List.foldl_nil]
    rw [foldl_normal true _ hrev]
    simp

theorem rooted_cons_slash (s : Str) : rooted ('/' :: s) = true := by
  simp [rooted]

theorem rooted_joinSlash {r : Bool} {out : List Str} (h : StackOK r out) (hne : out ≠ []) :
    rooted (joinSlash out.reverse) = false := by
  have hfree := StackOK_slashfree h
  obtain ⟨k, ns, rfl, hns, hk⟩ := h
  -- the first element written is a name or `..`: it starts with no slash
  have hfirst : ∀ e es, (ns ++ List.replicate k dotdot).reverse = e :: es →
      e ≠ [] ∧ e.head? ≠ some '/' := by
    intro e es he
    have hmem : e ∈ ns ++ List.replicate k dotdot := by
      rw [← List.mem_reverse, he]; exact List.mem_cons_self _ _
    have hslash : '/' ∉ e := hfree e hmem
    have hnonempty : e ≠ [] := by
      rcases List.mem_append.1 hmem with h1 | h1
      · exact ((normalName_iff e).1 (hns e h1)).1
      · rw [List.eq_of_mem_replicate h1]; decide
    refine ⟨hnonempty, ?_⟩
    cases e with
    | nil => exact absurd rfl hnonempty
    | cons c e =>
      simp only [List.mem_cons, not_or] at hslash
      simp only [List.head?_cons, ne_eq, Option.some.injEq]
      exact fun h2 => hslash.1 h2.symm
  cases hrev : (ns ++ List.replicate k dotdot).reverse with
  | nil => simp at hrev; simp [hrev] at hne
  | cons e es =>
    obtain ⟨h1, h2⟩ := hfirst e es hrev
    cases e with
    | nil => exact absurd rfl h1
    | cons c e =>
      have hc : c ≠ '/' := by simpa using h2
      cases es with
      | nil => simp [joinSlash, rooted, hc]
      | cons f es => simp [joinSlash, rooted, hc]

theorem rooted_render {r : Bool} {out : List Str} (h : StackOK r out) :
    rooted (render r out.reverse) = r := by
  cases r
  · by_cases hne : out = []
    · subst hne; simp [render, rooted]
    · have : out.reverse ≠ [] := by simpa using hne
      simp only [render, this, if_false, Bool.false_eq_true]
      exact rooted_joinSlash h hne
  · simp [render, rooted]

theorem cleanElems_render {r : Bool} {out : List Str} (h : StackOK r out) :
    cleanElems (render r out.reverse) = out.reverse := by
  have hr := rooted_render h
  have hfree : ∀ e ∈ out.reverse, '/' ∉ e :=
    fun e he => StackOK_slashfree h e (List.mem_reverse.1 he)
  have hskip : ∀ o : List Str, cleanStep r o [] = o := fun o => cleanStep_skip r o [] (Or.inl rfl)
  unfold cleanElems
  rw [hr]
  by_cases hne : out = []
  · subst hne
    cases r
    · simp [render, Split, cleanStep]
    · simp [render, Split, joinSlash, cleanStep]
  · have hne2 : out.reverse ≠ [] := by simpa using hne
    have hsplit : Split (joinSlash out.reverse) = out.reverse := Split_joinSlash _ hne2 hfree
    cases r
    · simp only [render, hne2, if_false, Bool.false_eq_true, hsplit]
      rw [foldl_stack h]
    · simp only [render, if_true, Split, hsplit, List.foldl_cons, hskip]
      rw [foldl_stack h]

theorem cleanElems_Clean (path : Str) : cleanElems (Clean path) = cleanElems path := by
  have h := cleanElems_render (cleanElems_stack path)
  simpa [Clean] using h

theorem rooted_Clean (path : Str) : rooted (Clean path) = rooted path := by
  have h := rooted_render (cleanElems_stack path)
  simpa [Clean] using h

theorem rooted_append (d : Str) (hd : d ≠ []) (s : Str) : rooted (d ++ s) = rooted d := by
  cases d with
  | nil => exact absurd rfl hd
  | cons c d => simp [rooted]

theorem Split_head_of_rooted (s : Str) (h : rooted s = true) : (Split s).head? = some [] := by
  cases s with
  | nil => simp [rooted] at h
  | cons c s =>
    have hc : c = '/' := by simpa [rooted] using h
    simp [Split, hc]

theorem rooted_of_normal (rest : Str) (h : ∀ e ∈ Split rest, normalName e = true) :
    rooted rest = false := by
  cases hr : rooted rest with
  | false => rfl
  | true =>
    have h1 := Split_head_of_rooted rest hr
    cases hs : Split rest with
    | nil => exact absurd hs (Split_ne_nil rest)
    | cons x r =>
      rw [hs] at h1
      have hx : x = [] := by simpa using h1
      have := h x (by rw [hs]; exact List.mem_cons_self _ _)
      rw [hx] at this
      exact absurd this (by decide)

theorem ne_nil_of_normal (rest : Str) (h : ∀ e ∈ Split rest, normalName e = true) :
    rest ≠ [] := by
  intro hr
  subst hr
  have := h [] (by simp [Split])
  exact absurd this (by decide)

theorem cleanElems_nil : cleanElems [] = [] := by
  simp [cleanElems, Split, cleanStep]

/-- The elements of `Join(d, rest)` are the cleaned elements of `d` followed by
the elements of `rest`, when those are all names. -/
theorem cleanElems_Join (d rest : Str) (h : ∀ e ∈ Split rest, normalName e = true) :
    cleanElems (Join [d, rest]) = cleanElems d ++ Split rest ∧
      rooted (Join [d, rest]) = rooted d := by
  have hrest : rest ≠ [] := ne_nil_of_normal rest h
  have hrev : ∀ e ∈ (Split rest), normalName e = true := h
  by_cases hd : d = []
  · subst hd
    have hJ : Join [[], rest] = Clean rest := by
      simp [Join, hrest, joinSlash]
    rw [hJ, cleanElems_Clean, rooted_Clean, cleanElems_nil]
    refine ⟨?_, by simpa [rooted] using rooted_of_normal rest h⟩
    unfold cleanElems
    rw [foldl_normal _ _ h]
    simp
  · have hJ : Join [d, rest] = Clean (d ++ '/' :: rest) := by
      simp [Join, hd, joinSlash]
    rw [hJ, cleanElems_Clean, rooted_Clean, rooted_append d hd]
    refine ⟨?_, rfl⟩
    unfold cleanElems
    rw [rooted_append d hd, Split_append, List.foldl_append, foldl_normal _ _ h]
    simp

/-! ## Lemmas on `filepath.Rel` and `filepath.Walk` -/

theorem dropCommon_append (b t : List Str) : dropCommon b (b ++ t) = ([], t) := by
  induction b with
  | nil => cases t <;> simp [dropCommon]
  | cons a b ih => simp [dropCommon, ih]

theorem Rel_under (sourcePath path : Str) (rel : List Str) (hrel : rel ≠ [])
    (helems : cleanElems path = cleanElems sourcePath ++ rel)
    (hrooted : rooted path = rooted sourcePath) :
    Rel sourcePath path = .ok (joinSlash rel) := by
  have hne : ¬ cleanElems sourcePath = cleanElems sourcePath ++ rel := by
    intro h
    have := congrArg List.length h
    simp at this
    exact hrel this
  simp [Rel, helems, hrooted, hne, dropCommon_append]

theorem walkPath_snoc (root : Str) (rel : List Str) (name : Str) :
    walkPath root (rel ++ [name]) = Join [walkPath root rel, name] := by
  simp [walkPath, List.foldl_append]

theorem uploadBatch_append (s : S3Client) (sourcePath key : Str) (upd : Bool)
    (a b : List (List Str × FileInfo)) :
    uploadBatch s sourcePath key upd (a ++ b) =
      uploadBatch s sourcePath key upd a ++ uploadBatch s sourcePath key upd b := by
  simp [uploadBatch]

theorem uploadConsulted_append (key : Str) (upd : Bool) (a b : List (List Str × FileInfo)) :
    uploadConsulted key upd (a ++ b) = uploadConsulted key upd a ++ uploadConsulted key upd b := by
  cases upd <;> simp [uploadConsulted]

theorem extend_nil (plan : UploadPlan) (s : S3Client) (sourcePath key : Str) (upd : Bool) :
    plan.extend s sourcePath key upd [] = plan := by
  cases upd <;> simp [UploadPlan.extend, uploadBatch, uploadConsulted]

theorem extend_append (plan : UploadPlan) (s : S3Client) (sourcePath key : Str) (upd : Bool)
    (a b : List (List Str × FileInfo)) :
    (plan.extend s sourcePath key upd a).extend s sourcePath key upd b =
      plan.extend s sourcePath key upd (a ++ b) := by
  simp [UploadPlan.extend, uploadBatch_append, uploadConsulted_append]

theorem uploadWalkFn_file (s : S3Client) (sourcePath key : Str) (upd : Bool)
    (plan : UploadPlan) (path : Str) (rel : List Str) (size modTime : Int)
    (hrel : rel ≠ [])
    (helems : cleanElems path = cleanElems sourcePath ++ rel)
    (hrooted : rooted path = rooted sourcePath)
    (hpath : path = walkPath sourcePath rel) :
    uploadWalkFn s sourcePath key upd plan path (some ⟨size, modTime, false⟩) none =
      .ok (plan.extend s sourcePath key upd [(rel, ⟨size, modTime, false⟩)]) := by
  have hR := Rel_under sourcePath path rel hrel helems hrooted
  subst hpath
  cases upd with
  | false =>
    simp [uploadWalkFn, hR, UploadPlan.extend, uploadBatch, uploadConsulted, uploadOperation,
      ToSlash]
  | true =>
    by_cases hu : (shouldUpdateFile s (key ++ '/' :: joinSlash rel) modTime).1 = true
    · simp [uploadWalkFn, hR, UploadPlan.extend, uploadBatch, uploadConsulted, uploadOperation,
        ToSlash, hu]
    · simp [uploadWalkFn, hR, UploadPlan.extend, uploadBatch, uploadConsulted, uploadOperation,
        ToSlash, hu]

theorem validEntries_cons (name : Str) (node : Node) (rest : List (Str × Node))
    (h : validEntries ((name, node) :: rest) = true) :
    normalName name = true ∧ validNode node = true ∧ validEntries rest = true := by
  simpa [validEntries, Bool.and_eq_true, and_assoc] using h

mutual
theorem walk_enumerate (s : S3Client) (sourcePath key : Str) (upd : Bool) :
    ∀ (node : Node) (path : Str) (rel : List Str) (plan : UploadPlan),
      validNode node = true →
      (rel ≠ [] ∨ ∃ entries, node = .dir entries) →
      cleanElems path = cleanElems sourcePath ++ rel →
      rooted path = rooted sourcePath →
      path = walkPath sourcePath rel →
      walk (uploadWalkFn s sourcePath key upd) path node plan =
        (enumerate rel node).map (plan.extend s sourcePath key upd)
  | .file size modTime, path, rel, plan, _, hrel, helems, hrooted, hpath => by
    have hne : rel ≠ [] := by
      rcases hrel with h | ⟨entries, h⟩
      · exact h
      · cases h
    simp only [walk, enumerate, Except.map]
    exact uploadWalkFn_file s sourcePath key upd plan path rel size modTime hne helems
      hrooted hpath
  | .noStat err, path, rel, plan, _, _, _, _, _ => by
    simp [walk, enumerate, Except.map, uploadWalkFn]
  | .unreadable err, path, rel, plan, _, _, _, _, _ => by
    simp [walk, enumerate, Except.map, uploadWalkFn]
  | .dir entries, path, rel, plan, hvalid, _, helems, hrooted, hpath => by
    have hv : validEntries entries = true := by simpa [validNode] using hvalid
    simp only [walk, enumerate, uploadWalkFn]
    exact walkEntries_enumerate s sourcePath key upd entries path rel plan hv helems
      hrooted hpath
theorem walkEntries_enumerate (s : S3Client) (sourcePath key : Str) (upd : Bool) :
    ∀ (entries : List (Str × Node)) (path : Str) (rel : List Str) (plan : UploadPlan),
      validEntries entries = true →
      cleanElems path = cleanElems sourcePath ++ rel →
      rooted path = rooted sourcePath →
      path = walkPath sourcePath rel →
      walkEntries (uploadWalkFn s sourcePath key upd) path entries plan =
        (enumerateEntries rel entries).map (plan.extend s sourcePath key upd)
  | [], path, rel, plan, _, _, _, _ => by
    simp [walkEntries, enumerateEntries, Except.map, extend_nil]
  | (name, node) :: rest, path, rel, plan, hvalid, helems, hrooted, hpath => by
    obtain ⟨hname, hnode, hrest⟩ := validEntries_cons name node rest hvalid
    have hslash : '/' ∉ name := ((normalName_iff name).1 hname).2.1
    have hsplit : Split name = [name] := Split_of_not_mem name hslash
    have hJ := cleanElems_Join path name (by rw [hsplit]; simpa using hname)
    rw [hsplit] at hJ
    have helems1 : cleanElems (Join [path, name]) = cleanElems sourcePath ++ (rel ++ [name]) := by
      rw [hJ.1, helems, List.append_assoc]
    have hrooted1 : rooted (Join [path, name]) = rooted sourcePath := by
      rw [hJ.2, hrooted]
    have hpath1 : Join [path, name] = walkPath sourcePath (rel ++ [name]) := by
      rw [walkPath_snoc, hpath]
    have h1 := walk_enumerate s sourcePath key upd node (Join [path, name]) (rel ++ [name])
      plan hnode (Or.inl (by simp)) helems1 hrooted1 hpath1
    simp only [walkEntries, enumerateEntries]
    rw [h1]
    cases hen : enumerate (rel ++ [name]) node with
    | error e => simp [Except.map]
    | ok files =>
      simp only [Except.map]
      rw [walkEntries_enumerate s sourcePath key upd rest path rel _ hrest helems hrooted hpath]
      cases hen2 : enumerateEntries rel rest with
      | error e => simp [Except.map]
      | ok more => simp [Except.map, extend_append]
end

/-! ## The planner of `Host`: theorems -/

theorem uploadDirectory_enumerate (s : S3Client) (entries : List (Str × Node))
    (sourcePath key : Str) (upd : Bool) (hvalid : validEntries entries = true) :
    uploadDirectory s (.dir entries) sourcePath key upd =
      (enumerateEntries [] entries).map (fun files =>
        ⟨uploadBatch s sourcePath key upd files, uploadConsulted key upd files⟩) := by
  have h := walk_enumerate s sourcePath key upd (.dir entries) sourcePath [] ⟨[], []⟩
    (by simpa [validNode] using hvalid) (Or.inr ⟨entries, rfl⟩) (by simp) rfl (by simp [walkPath])
  simp only [uploadDirectory, Walk, h, enumerate]
  cases enumerateEntries [] entries with
  | error e => simp [Except.map]
  | ok files => simp [Except.map, UploadPlan.extend]

/-- C4. For a directory whose names are names a directory read can return, the
batch `uploadDirectory` builds is the enumeration of the files of the tree, in
order, each file mapped to the operation with local path the walked path and
remote key `key + "/" + relative path with forward slashes`: every file and no
metadata lookup when `updateExisting` is false, exactly the files for which
`shouldUpdateFile` answers true (one lookup per file) when it is true.
Directories give no operation, and a failing enumeration fails the planning. -/
theorem uploadDirectory_batch (s : S3Client) (entries : List (Str × Node))
    (sourcePath key : Str) (hvalid : validEntries entries = true) :
    (∀ files, enumerateEntries [] entries = .ok files →
      uploadDirectory s (.dir entries) sourcePath key false =
        .ok ⟨files.map (fun file =>
              ⟨walkPath sourcePath file.1, key ++ "/".toList ++ joinSlash file.1, false⟩), []⟩ ∧
      uploadDirectory s (.dir entries) sourcePath key true =
        .ok ⟨(files.filter (fun file =>
                (shouldUpdateFile s (key ++ "/".toList ++ joinSlash file.1) file.2.ModTime).1)).map
              (fun file =>
                ⟨walkPath sourcePath file.1, key ++ "/".toList ++ joinSlash file.1, true⟩),
            files.map (fun file => key ++ "/".toList ++ joinSlash file.1)⟩) ∧
    (∀ e updateExisting, enumerateEntries [] entries = .error e →
      uploadDirectory s (.dir entries) sourcePath key updateExisting = .error e) := by
  refine ⟨fun files hfiles => ⟨?_, ?_⟩, fun e upd he => ?_⟩
  · rw [uploadDirectory_enumerate s entries sourcePath key false hvalid, hfiles]
    simp [Except.map, uploadBatch, uploadConsulted, uploadOperation]
  · rw [uploadDirectory_enumerate s entries sourcePath key true hvalid, hfiles]
    simp [Except.map, uploadBatch, uploadConsulted, uploadOperation]
  · rw [uploadDirectory_enumerate s entries sourcePath key upd hvalid, he]
    rfl

/-- C4, at a tree with two files, one in a subdirectory. -/
theorem uploadDirectory_batch_witness :
    uploadDirectory ⟨fun _ => .error "NotFound".toList, fun _ => .ok []⟩
        (.dir [("a.txt".toList, .file 3 10),
          ("sub".toList, .dir [("b.txt".toList, .file 4 11)])])
        "/data".toList "K".toList false =
      .ok ⟨[⟨"/data/a.txt".toList, "K/a.txt".toList, false⟩,
            ⟨"/data/sub/b.txt".toList, "K/sub/b.txt".toList, false⟩], []⟩ :=
  ((uploadDirectory_batch ⟨fun _ => .error "NotFound".toList, fun _ => .ok []⟩
      [("a.txt".toList, .file 3 10), ("sub".toList, .dir [("b.txt".toList, .file 4 11)])]
      "/data".toList "K".toList (by decide)).1
    [(["a.txt".toList], ⟨3, 10, false⟩), (["sub".toList, "b.txt".toList], ⟨4, 11, false⟩)]
    rfl).1

/-- C3 fails on the code for a directory source. A fresh host of `/data`, holding
`a.txt` and `sub/b.txt`, under the key `WXYZ` plans the remote keys
`SYNCTHING/WXYZ/a.txt` and `SYNCTHING/WXYZ/sub/b.txt`, and the batch is then run
as `uploadFile(ctx, op.s3Key, op.localPath)` although `uploadFile` takes
`(ctx, localPath, s3Key)`: the file opened is the one named by the remote key,
which the disk does not hold, and where such a file can be opened its content is
stored under the key `/data/a.txt`. On a disk holding only the two files,
`processOperations` with `uploadFile` returns the aggregate error of two failed
opens and nothing is stored. The single file `notes.txt` under `ABCD`, uploaded
by the direct call, is stored under `SYNCTHING/ABCD/notes.txt`. -/
theorem mainHost_directory_arguments_swapped :
    mainHost Char.toUpper (bucketOf [] 0 0) (.ok ⟨0, 0, true⟩)
        (.dir [("a.txt".toList, .file 3 10),
          ("sub".toList, .dir [("b.txt".toList, .file 4 11)])])
        "/data".toList "WXYZ".toList false =
      .ok (.batch [⟨"/data/a.txt".toList, "SYNCTHING/WXYZ/a.txt".toList, false⟩,
        ⟨"/data/sub/b.txt".toList, "SYNCTHING/WXYZ/sub/b.txt".toList, false⟩], []) ∧
    (Action.batch [⟨"/data/a.txt".toList, "SYNCTHING/WXYZ/a.txt".toList, false⟩,
        ⟨"/data/sub/b.txt".toList, "SYNCTHING/WXYZ/sub/b.txt".toList, false⟩]).uploadCalls =
      [("SYNCTHING/WXYZ/a.txt".toList, "/data/a.txt".toList),
        ("SYNCTHING/WXYZ/sub/b.txt".toList, "/data/sub/b.txt".toList)] ∧
    uploadFile
        (diskOf [("/data/a.txt".toList, "aaa".toList),
          ("/data/sub/b.txt".toList, "bbbb".toList)])
        (fun _ _ => none) "SYNCTHING/WXYZ/a.txt".toList "/data/a.txt".toList =
      .error "open SYNCTHING/WXYZ/a.txt: no such file or directory".toList ∧
    uploadFile
        (diskOf [("/data/a.txt".toList, "aaa".toList),
          ("SYNCTHING/WXYZ/a.txt".toList, "other".toList)])
        (fun _ _ => none) "SYNCTHING/WXYZ/a.txt".toList "/data/a.txt".toList =
      .ok ("/data/a.txt".toList, "other".toList) ∧
    processOperations
        [⟨"/data/a.txt".toList, "SYNCTHING/WXYZ/a.txt".toList, false⟩,
          ⟨"/data/sub/b.txt".toList, "SYNCTHING/WXYZ/sub/b.txt".toList, false⟩]
        (asProcessFunc (uploadFile
          (diskOf [("/data/a.txt".toList, "aaa".toList),
            ("/data/sub/b.txt".toList, "bbbb".toList)])
          (fun _ _ => none)))
        [0, 1, 0, 1, 0, 1] =
      some (some ("multiple errors occurred: [" ++
        "failed to process /data/a.txt: " ++
        "open SYNCTHING/WXYZ/a.txt: no such file or directory " ++
        "failed to process /data/sub/b.txt: " ++
        "open SYNCTHING/WXYZ/sub/b.txt: no such file or directory]").toList) ∧
    (mainHost Char.toUpper (bucketOf [] 0 0) (.ok ⟨5, 100, false⟩) (.file 5 100)
        "notes.txt".toList "ABCD".toList false).map (fun r => r.1.uploadCalls) =
      .ok [("notes.txt".toList, "SYNCTHING/ABCD/notes.txt".toList)] :=
  ⟨rfl, rfl, rfl, rfl, rfl, rfl⟩

/-! ## The planner of `Sync`: theorems -/

/-- C6. Whatever `strings.ToUpper` does to the key: when the listing for the
normalised key is empty, `Sync` fails with the not-found error
`no objects found with prefix`, leaves the local file system as it was, makes no
`MkdirAll` call and hands nothing over for transfer. -/
theorem Sync_empty_listing {σ : Type} (upper : Char → Char) (s : S3Client) (os : OS σ)
    (w : σ) (key destPath : Str)
    (h : s.ListObjectsV2 (ToUpper upper key) = .ok []) :
    (Sync upper s os w key destPath).result = .error (.noObjectsFound (ToUpper upper key)) ∧
    (Sync upper s os w key destPath).world = w ∧
    (Sync upper s os w key destPath).mkdirs = [] := by
  simp [Sync, h]

/-- C6, at a bucket that holds nothing under the key `ABCD`. -/
theorem Sync_empty_listing_witness :
    (bucketOf ["SYNCTHING/WXYZ/a.txt".toList] 5 100).ListObjectsV2
        (ToUpper Char.toUpper "syncThing/ABCD".toList) = .ok [] ∧
    (Sync Char.toUpper (bucketOf ["SYNCTHING/WXYZ/a.txt".toList] 5 100) dirsOnly []
        "syncThing/ABCD".toList "/tmp/out".toList).result =
      .error (.noObjectsFound "SYNCTHING/ABCD".toList) ∧
    (Sync Char.toUpper (bucketOf ["SYNCTHING/WXYZ/a.txt".toList] 5 100) dirsOnly []
        "syncThing/ABCD".toList "/tmp/out".toList).world = [] ∧
    (Sync Char.toUpper (bucketOf ["SYNCTHING/WXYZ/a.txt".toList] 5 100) dirsOnly []
        "syncThing/ABCD".toList "/tmp/out".toList).mkdirs = [] :=
  ⟨rfl, Sync_empty_listing Char.toUpper (bucketOf ["SYNCTHING/WXYZ/a.txt".toList] 5 100)
    dirsOnly [] "syncThing/ABCD".toList "/tmp/out".toList rfl⟩

/-- C10 fails on the code. The bucket holds `SYNCTHING/ABCD`, the key under
which `Host` stores a single file when updating the key `ABCD`, and
`SYNCTHING/ABCD/a.txt`; both start with the normalised prefix. `Sync` of `ABCD`
lists both and stops with the index `[1]` out of range at the first one. -/
theorem Sync_bare_key_out_of_range :
    mainHost Char.toUpper (bucketOf [] 0 0) (.ok ⟨5, 100, false⟩) (.file 5 100)
        "notes.txt".toList "ABCD".toList true =
      .ok (.single "SYNCTHING/ABCD".toList "notes.txt".toList, ["SYNCTHING/ABCD".toList]) ∧
    (bucketOf ["SYNCTHING/ABCD".toList, "SYNCTHING/ABCD/a.txt".toList] 5 100).ListObjectsV2
        (ToUpper Char.toUpper (syncBucketRoot ++ "ABCD".toList)) =
      .ok [⟨"SYNCTHING/ABCD".toList⟩, ⟨"SYNCTHING/ABCD/a.txt".toList⟩] ∧
    HasPrefix "SYNCTHING/ABCD".toList
        (ToUpper Char.toUpper (syncBucketRoot ++ "ABCD".toList)) = true ∧
    HasPrefix "SYNCTHING/ABCD/a.txt".toList
        (ToUpper Char.toUpper (syncBucketRoot ++ "ABCD".toList)) = true ∧
    SplitN (TrimPrefix (TrimPrefix "SYNCTHING/ABCD".toList
        (ToUpper Char.toUpper syncBucketRoot)) "/".toList) 2 = ["ABCD".toList] ∧
    (mainSync Char.toUpper
        (bucketOf ["SYNCTHING/ABCD".toList, "SYNCTHING/ABCD/a.txt".toList] 5 100)
        dirsOnly [] "ABCD".toList "/tmp/out".toList).result = .error .indexOutOfRange :=
  ⟨rfl, rfl, rfl, rfl, rfl, rfl⟩

theorem HasPrefix_slash_false (seg rest : Str) (hne : seg ≠ []) (hseg : '/' ∉ seg) :
    HasPrefix (seg ++ rest) ['/'] = false := by
  cases seg with
  | nil => exact absurd rfl hne
  | cons c seg =>
    simp only [List.mem_cons, not_or] at hseg
    have hc : c ≠ '/' := fun h => hseg.1 h.symm
    simp [HasPrefix, hc]

theorem objectLocalPath_of_key (upper : Char → Char)
    (hroot : ToUpper upper syncBucketRoot = "SYNCTHING/".toList)
    (destPath seg rest : Str) (hne : seg ≠ []) (hseg : '/' ∉ seg) :
    objectLocalPath upper destPath ("SYNCTHING/".toList ++ seg ++ "/".toList ++ rest) =
      some (Join [destPath, rest]) := by
  have h1 : TrimPrefix ("SYNCTHING/".toList ++ seg ++ "/".toList ++ rest)
      (ToUpper upper syncBucketRoot) = seg ++ '/' :: rest := by
    rw [hroot]
    have := TrimPrefix_append "SYNCTHING/".toList (seg ++ '/' :: rest)
    simpa using this
  have h2 : TrimPrefix (seg ++ '/' :: rest) "/".toList = seg ++ '/' :: rest := by
    have := HasPrefix_slash_false seg ('/' :: rest) hne hseg
    simp [TrimPrefix, this]
  have h3 : SplitN (seg ++ '/' :: rest) 2 = [seg, rest] := by
    simp [SplitN, Cut_append seg rest hseg]
  simp only [objectLocalPath, h1, h2, h3, FromSlash]
  rfl

theorem downloadLoop_ok {σ : Type} (upper : Char → Char) (s : S3Client) (os : OS σ)
    (destPath : Str) :
    ∀ (objects : List Object) (w : σ) (mkdirs : List Str) (operations : List fileOperation)
      (w1 : σ) (mkdirs1 : List Str) (operations1 : List fileOperation),
      downloadLoop upper s os destPath objects w mkdirs operations =
        (w1, mkdirs1, .ok operations1) →
      ∃ kept : List Object, kept.Sublist objects ∧
        operations1 = operations ++ kept.filterMap (downloadOperation upper destPath) ∧
        ∀ obj ∈ objects, ∃ localPath,
          objectLocalPath upper destPath obj.Key = some localPath := by
  intro objects
  induction objects with
  | nil =>
    intro w mkdirs operations w1 mkdirs1 operations1 h
    simp only [downloadLoop, Prod.mk.injEq, Except.ok.injEq] at h
    exact ⟨[], List.Sublist.refl _, by simp [h.2.2], by simp⟩
  | cons obj rest ih =>
    intro w mkdirs operations w1 mkdirs1 operations1 h
    unfold downloadLoop at h
    cases hlp : objectLocalPath upper destPath obj.Key with
    | none => simp [hlp] at h
    | some localPath =>
      simp only [hlp] at h
      cases hmk : os.MkdirAll w (Dir localPath) with
      | mk err w2 =>
        cases err with
        | some e => simp [hmk] at h
        | none =>
          simp only [hmk] at h
          by_cases hsd : (shouldDownloadFile s os w2 obj.Key localPath).1 = true
          · simp only [hsd, if_true] at h
            obtain ⟨kept, hsub, hops, hdef⟩ := ih _ _ _ _ _ _ h
            refine ⟨obj :: kept, hsub.cons₂ obj, ?_, ?_⟩
            · rw [hops]
              simp [downloadOperation, hlp]
            · intro o ho
              rcases List.mem_cons.1 ho with h1 | h1
              · exact ⟨localPath, by rw [h1]; exact hlp⟩
              · exact hdef o h1
          · simp only [hsd, if_false, Bool.false_eq_true] at h
            obtain ⟨kept, hsub, hops, hdef⟩ := ih _ _ _ _ _ _ h
            refine ⟨kept, hsub.cons obj, hops, ?_⟩
            intro o ho
            rcases List.mem_cons.1 ho with h1 | h1
            · exact ⟨localPath, by rw [h1]; exact hlp⟩
            · exact hdef o h1

theorem handOver_batch {σ : Type} (r : σ × List Str × Except Failure (List fileOperation))
    (ops : List fileOperation) (h : (handOver r).result = .ok (.batch ops)) :
    ∃ w mkdirs, r = (w, mkdirs, .ok ops) := by
  obtain ⟨w, mkdirs, res⟩ := r
  cases res with
  | error f => simp [handOver] at h
  | ok operations =>
    by_cases h0 : operations.length = 0
    · simp [handOver, h0] at h
    · simp only [handOver, h0, if_false, Except.ok.injEq, Action.batch.injEq] at h
      exact ⟨w, mkdirs, by rw [h]⟩

theorem downloadMultipleObjects_batch {σ : Type} (upper : Char → Char) (s : S3Client)
    (os : OS σ) (w : σ)
    (objects : List Object) (destPath : Str) (destInfo : Option FileInfo)
    (ops : List fileOperation)
    (h : (downloadMultipleObjects upper s os w objects destPath destInfo).result =
      .ok (.batch ops)) :
    ∃ kept : List Object, kept.Sublist objects ∧
      ops = kept.filterMap (downloadOperation upper destPath) ∧
      ∀ obj ∈ objects, ∃ localPath,
        objectLocalPath upper destPath obj.Key = some localPath := by
  unfold downloadMultipleObjects at h
  cases destInfo with
  | none =>
    simp only at h
    cases hmk : os.MkdirAll w destPath with
    | mk err w2 =>
      cases err with
      | some e => simp [hmk] at h
      | none =>
        simp only [hmk] at h
        obtain ⟨w3, mk3, hr⟩ := handOver_batch _ ops h
        obtain ⟨kept, hsub, hops, hdef⟩ := downloadLoop_ok upper s os destPath _ _ _ _ _ _ _ hr
        exact ⟨kept, hsub, by simpa using hops, hdef⟩
  | some info =>
    simp only at h
    by_cases hd : info.IsDir = true
    · simp only [hd, Bool.not_true, Bool.false_eq_true, if_false] at h
      obtain ⟨w3, mk3, hr⟩ := handOver_batch _ ops h
      obtain ⟨kept, hsub, hops, hdef⟩ := downloadLoop_ok upper s os destPath _ _ _ _ _ _ _ hr
      exact ⟨kept, hsub, by simpa using hops, hdef⟩
    · simp [hd] at h

/-- C7, as stated, fails at its own scenario: with the objects
`syncThing/ABCD/a.txt` and `syncThing/ABCD/sub/b.txt` in the bucket, syncing the
key `ABCD` into `/tmp/out` lists the prefix `SYNCTHING/ABCD`, finds neither
object, fails with `no objects found with prefix` and computes no local path at
all: nothing is created under `/tmp/out`. -/
theorem mainSync_mixed_case_counterexample :
    (bucketOf ["syncThing/ABCD/a.txt".toList, "syncThing/ABCD/sub/b.txt".toList] 5
        100).ListObjectsV2 (ToUpper Char.toUpper (syncBucketRoot ++ "ABCD".toList)) = .ok [] ∧
    (mainSync Char.toUpper
        (bucketOf ["syncThing/ABCD/a.txt".toList, "syncThing/ABCD/sub/b.txt".toList] 5 100)
        dirsOnly [] "ABCD".toList "/tmp/out".toList).result =
      .error (.noObjectsFound "SYNCTHING/ABCD".toList) ∧
    (mainSync Char.toUpper
        (bucketOf ["syncThing/ABCD/a.txt".toList, "syncThing/ABCD/sub/b.txt".toList] 5 100)
        dirsOnly [] "ABCD".toList "/tmp/out".toList).mkdirs = [] ∧
    (mainSync Char.toUpper
        (bucketOf ["syncThing/ABCD/a.txt".toList, "syncThing/ABCD/sub/b.txt".toList] 5 100)
        dirsOnly [] "ABCD".toList "/tmp/out".toList).world = [] :=
  ⟨rfl, rfl, rfl, rfl⟩

/-- C7, amended. An object whose key is the uppercased root `SYNCTHING/`, one
non-empty segment without a slash, a slash and a remainder has as local path
`filepath.Join` of the destination path and that remainder; when the remainder
is made of names, the elements of the local path are those of the destination
followed by those of the remainder. Every operation of a multi-object sync has
the local path so computed from its key. Syncing `ABCD` from the objects
`SYNCTHING/ABCD/a.txt` and `SYNCTHING/ABCD/sub/b.txt` into `/tmp/out` gives the
local paths `/tmp/out/a.txt` and `/tmp/out/sub/b.txt`. -/
theorem objectLocalPath_strips (upper : Char → Char)
    (hroot : ToUpper upper syncBucketRoot = "SYNCTHING/".toList)
    (destPath seg rest : Str) (hne : seg ≠ []) (hseg : '/' ∉ seg) :
    objectLocalPath upper destPath ("SYNCTHING/".toList ++ seg ++ "/".toList ++ rest) =
      some (Join [destPath, rest]) ∧
    ((∀ e ∈ Split rest, normalName e = true) →
      cleanElems (Join [destPath, rest]) = cleanElems destPath ++ Split rest) ∧
    (∀ {σ : Type} (s : S3Client) (os : OS σ) (w : σ) (objects : List Object)
        (destInfo : Option FileInfo) (ops : List fileOperation),
      (downloadMultipleObjects upper s os w objects destPath destInfo).result =
        .ok (.batch ops) →
      ∀ op ∈ ops, objectLocalPath upper destPath op.s3Key = some op.localPath ∧
        (⟨op.s3Key⟩ : Object) ∈ objects) ∧
    (mainSync Char.toUpper
        (bucketOf ["SYNCTHING/ABCD/a.txt".toList, "SYNCTHING/ABCD/sub/b.txt".toList] 5 100)
        dirsOnly [] "ABCD".toList "/tmp/out".toList).result =
      .ok (.batch [⟨"/tmp/out/a.txt".toList, "SYNCTHING/ABCD/a.txt".toList, false⟩,
        ⟨"/tmp/out/sub/b.txt".toList, "SYNCTHING/ABCD/sub/b.txt".toList, false⟩]) := by
  refine ⟨objectLocalPath_of_key upper hroot destPath seg rest hne hseg,
    fun h => (cleanElems_Join destPath rest h).1, ?_, rfl⟩
  intro σ s os w objects destInfo ops h op hop
  obtain ⟨kept, hsub, hops, _⟩ :=
    downloadMultipleObjects_batch upper s os w objects destPath destInfo ops h
  rw [hops, List.mem_filterMap] at hop
  obtain ⟨obj, hobj, hdo⟩ := hop
  cases hlp : objectLocalPath upper destPath obj.Key with
  | none => simp [downloadOperation, hlp] at hdo
  | some localPath =>
    simp only [downloadOperation, hlp, Option.map_some', Option.some.injEq] at hdo
    subst hdo
    exact ⟨hlp, hsub.subset hobj⟩

/-- C7, amended, at the key segment `ABCD` and the remainder `sub/b.txt`. -/
theorem objectLocalPath_strips_witness :
    ToUpper Char.toUpper syncBucketRoot = "SYNCTHING/".toList ∧
    objectLocalPath Char.toUpper "/tmp/out".toList "SYNCTHING/ABCD/sub/b.txt".toList =
      some "/tmp/out/sub/b.txt".toList :=
  ⟨rfl, (objectLocalPath_strips Char.toUpper rfl "/tmp/out".toList "ABCD".toList
    "sub/b.txt".toList (by decide) (by decide)).1⟩

/-! ## Disjointness of the planned operations -/

theorem enumerateEntries_cons_ok (rel : List Str) (name : Str) (node : Node)
    (rest : List (Str × Node)) (files : List (List Str × FileInfo))
    (h : enumerateEntries rel ((name, node) :: rest) = .ok files) :
    ∃ files1 more, enumerate (rel ++ [name]) node = .ok files1 ∧
      enumerateEntries rel rest = .ok more ∧ files = files1 ++ more := by
  simp only [enumerateEntries] at h
  cases h1 : enumerate (rel ++ [name]) node with
  | error e => simp [h1] at h
  | ok files1 =>
    cases h2 : enumerateEntries rel rest with
    | error e => simp [h1, h2] at h
    | ok more =>
      simp only [h1, h2, Except.ok.injEq] at h
      exact ⟨files1, more, rfl, rfl, h.symm⟩

mutual
theorem enumerate_shape :
    ∀ (node : Node) (rel : List Str) (files : List (List Str × FileInfo)),
      validNode node = true → enumerate rel node = .ok files →
      ∀ f ∈ files, ∃ suf, f.1 = rel ++ suf ∧ ∀ n ∈ suf, normalName n = true
  | .file size modTime, rel, files, _, h => by
    simp only [enumerate, Except.ok.injEq] at h
    subst h
    intro f hf
    simp only [List.mem_singleton] at hf
    subst hf
    exact ⟨[], by simp, by simp⟩
  | .noStat err, rel, files, _, h => by simp [enumerate] at h
  | .unreadable err, rel, files, _, h => by simp [enumerate] at h
  | .dir entries, rel, files, hvalid, h => by
    have hv : validEntries entries = true := by simpa [validNode] using hvalid
    simp only [enumerate] at h
    intro f hf
    obtain ⟨name, suf, _, hf1, hname, hsuf⟩ := enumerateEntries_shape entries rel files hv h f hf
    refine ⟨name :: suf, hf1, ?_⟩
    intro n hn
    rcases List.mem_cons.1 hn with h1 | h1
    · rw [h1]; exact hname
    · exact hsuf n h1
theorem enumerateEntries_shape :
    ∀ (entries : List (Str × Node)) (rel : List Str) (files : List (List Str × FileInfo)),
      validEntries entries = true → enumerateEntries rel entries = .ok files →
      ∀ f ∈ files, ∃ name suf, name ∈ entries.map Prod.fst ∧ f.1 = rel ++ name :: suf ∧
        normalName name = true ∧ ∀ n ∈ suf, normalName n = true
  | [], rel, files, _, h => by
    simp only [enumerateEntries, Except.ok.injEq] at h
    subst h
    simp
  | (name, node) :: rest, rel, files, hvalid, h => by
    obtain ⟨hname, hnode, hrest⟩ := validEntries_cons name node rest hvalid
    obtain ⟨files1, more, h1, h2, hfiles⟩ := enumerateEntries_cons_ok rel name node rest files h
    subst hfiles
    intro f hf
    rcases List.mem_append.1 hf with hf1 | hf1
    · obtain ⟨suf, hs1, hs2⟩ := enumerate_shape node (rel ++ [name]) files1 hnode h1 f hf1
      exact ⟨name, suf, List.mem_cons_self _ _, by simpa using hs1, hname, hs2⟩
    · obtain ⟨name1, suf, hn1, hs1, hs2, hs3⟩ :=
        enumerateEntries_shape rest rel more hrest h2 f hf1
      exact ⟨name1, suf, List.mem_cons_of_mem _ hn1, hs1, hs2, hs3⟩
end

theorem distinctEntries_cons (name : Str) (node : Node) (rest : List (Str × Node))
    (h : distinctEntries ((name, node) :: rest) = true) :
    name ∉ rest.map Prod.fst ∧ distinctNode node = true ∧ distinctEntries rest = true := by
  simp only [distinctEntries, Bool.and_eq_true, decide_eq_true_eq] at h
  exact ⟨h.1.1, h.1.2, h.2⟩

mutual
theorem enumerate_nodup :
    ∀ (node : Node) (rel : List Str) (files : List (List Str × FileInfo)),
      validNode node = true → distinctNode node = true → enumerate rel node = .ok files →
      (files.map Prod.fst).Nodup
  | .file size modTime, rel, files, _, _, h => by
    simp only [enumerate, Except.ok.injEq] at h
    subst h
    simp
  | .noStat err, rel, files, _, _, h => by simp [enumerate] at h
  | .unreadable err, rel, files, _, _, h => by simp [enumerate] at h
  | .dir entries, rel, files, hvalid, hdist, h => by
    have hv : validEntries entries = true := by simpa [validNode] using hvalid
    have hd : distinctEntries entries = true := by simpa [distinctNode] using hdist
    simp only [enumerate] at h
    exact enumerateEntries_nodup entries rel files hv hd h
theorem enumerateEntries_nodup :
    ∀ (entries : List (Str × Node)) (rel : List Str) (files : List (List Str × FileInfo)),
      validEntries entries = true → distinctEntries entries = true →
      enumerateEntries rel entries = .ok files → (files.map Prod.fst).Nodup
  | [], rel, files, _, _, h => by
    simp only [enumerateEntries, Except.ok.injEq] at h
    subst h
    simp
  | (name, node) :: rest, rel, files, hvalid, hdist, h => by
    obtain ⟨_, hnode, hrest⟩ := validEntries_cons name node rest hvalid
    obtain ⟨hnotin, hdnode, hdrest⟩ := distinctEntries_cons name node rest hdist
    obtain ⟨files1, more, h1, h2, hfiles⟩ := enumerateEntries_cons_ok rel name node rest files h
    subst hfiles
    rw [List.map_append, List.nodup_append]
    refine ⟨enumerate_nodup node (rel ++ [name]) files1 hnode hdnode h1,
      enumerateEntries_nodup rest rel more hrest hdrest h2, ?_⟩
    intro x hx1 hx2
    obtain ⟨f, hf, hfx⟩ := List.mem_map.1 hx1
    obtain ⟨g, hg, hgx⟩ := List.mem_map.1 hx2
    obtain ⟨suf, hs1, _⟩ := enumerate_shape node (rel ++ [name]) files1 hnode h1 f hf
    obtain ⟨name1, suf1, hn1, hs2, _, _⟩ := enumerateEntries_shape rest rel more hrest h2 g hg
    rw [hfx] at hs1
    rw [hgx] at hs2
    rw [hs1, List.append_assoc] at hs2
    have := List.append_cancel_left hs2
    simp only [List.singleton_append, List.cons.injEq] at this
    exact hnotin (by rw [this.1]; exact hn1)
end

theorem walkPath_elems (names : List Str) (hnames : ∀ n ∈ names, normalName n = true) :
    ∀ root : Str, cleanElems (walkPath root names) = cleanElems root ++ names := by
  induction names with
  | nil => intro root; simp [walkPath]
  | cons n names ih =>
    intro root
    have hn : normalName n = true := hnames n (List.mem_cons_self _ _)
    have hsplit : Split n = [n] := Split_of_not_mem n ((normalName_iff n).1 hn).2.1
    have hJ := (cleanElems_Join root n (by rw [hsplit]; simpa using hn)).1
    rw [hsplit] at hJ
    have hstep : walkPath root (n :: names) = walkPath (Join [root, n]) names := by
      simp [walkPath]
    rw [hstep, ih (fun m hm => hnames m (List.mem_cons_of_mem _ hm)), hJ]
    simp

theorem uploadDirectory_ok_files (s : S3Client) (entries : List (Str × Node))
    (sourcePath key : Str) (upd : Bool) (plan : UploadPlan)
    (hvalid : validEntries entries = true)
    (h : uploadDirectory s (.dir entries) sourcePath key upd = .ok plan) :
    ∃ files, enumerateEntries [] entries = .ok files ∧
      plan.operations = uploadBatch s sourcePath key upd files := by
  rw [uploadDirectory_enumerate s entries sourcePath key upd hvalid] at h
  cases hen : enumerateEntries [] entries with
  | error e => simp [hen, Except.map] at h
  | ok files =>
    simp only [hen, Except.map, Except.ok.injEq] at h
    exact ⟨files, rfl, by rw [← h]⟩

theorem uploadBatch_nodup (s : S3Client) (entries : List (Str × Node))
    (sourcePath key : Str) (upd : Bool) (files : List (List Str × FileInfo))
    (hvalid : validEntries entries = true) (hdist : distinctEntries entries = true)
    (hfiles : enumerateEntries [] entries = .ok files) :
    ((uploadBatch s sourcePath key upd files).map (fun op => op.localPath)).Nodup ∧
    ((uploadBatch s sourcePath key upd files).map (fun op => op.s3Key)).Nodup := by
  have hnd := enumerateEntries_nodup entries [] files hvalid hdist hfiles
  have hshape : ∀ x ∈ files.map Prod.fst, x ≠ [] ∧ ∀ n ∈ x, normalName n = true := by
    intro x hx
    obtain ⟨f, hf, hfx⟩ := List.mem_map.1 hx
    obtain ⟨name, suf, _, h1, h2, h3⟩ := enumerateEntries_shape entries [] files hvalid hfiles f hf
    rw [hfx] at h1
    simp only [List.nil_append] at h1
    subst h1
    refine ⟨by simp, ?_⟩
    intro n hn
    rcases List.mem_cons.1 hn with h4 | h4
    · rw [h4]; exact h2
    · exact h3 n h4
  have hsub : ∀ p : List Str × FileInfo → Bool,
      ((files.filter p).map Prod.fst).Sublist (files.map Prod.fst) :=
    fun p => (List.filter_sublist files).map Prod.fst
  have hlocal : ∀ x ∈ files.map Prod.fst, ∀ y ∈ files.map Prod.fst,
      walkPath sourcePath x = walkPath sourcePath y → x = y := by
    intro x hx y hy hxy
    have h1 := walkPath_elems x (hshape x hx).2 sourcePath
    have h2 := walkPath_elems y (hshape y hy).2 sourcePath
    rw [hxy, h2] at h1
    exact (List.append_cancel_left h1).symm
  have hkey : ∀ x ∈ files.map Prod.fst, ∀ y ∈ files.map Prod.fst,
      key ++ "/".toList ++ joinSlash x = key ++ "/".toList ++ joinSlash y → x = y := by
    intro x hx y hy hxy
    have h1 : joinSlash x = joinSlash y := List.append_cancel_left hxy
    exact joinSlash_injective x y (hshape x hx).1 (hshape y hy).1
      (fun e he => ((normalName_iff e).1 ((hshape x hx).2 e he)).2.1)
      (fun e he => ((normalName_iff e).1 ((hshape y hy).2 e he)).2.1) h1
  constructor
  · have h1 : (uploadBatch s sourcePath key upd files).map (fun op => op.localPath) =
        ((files.filter (fun file => !upd ||
          (shouldUpdateFile s (key ++ "/".toList ++ joinSlash file.1) file.2.ModTime).1)).map
            Prod.fst).map (walkPath sourcePath) := by
      simp [uploadBatch, uploadOperation, Function.comp_def]
    rw [h1]
    refine List.Nodup.map_on ?_ (hnd.sublist (hsub _))
    intro x hx y hy
    exact hlocal x ((hsub _).subset hx) y ((hsub _).subset hy)
  · have h1 : (uploadBatch s sourcePath key upd files).map (fun op => op.s3Key) =
        ((files.filter (fun file => !upd ||
          (shouldUpdateFile s (key ++ "/".toList ++ joinSlash file.1) file.2.ModTime).1)).map
            Prod.fst).map (fun x => key ++ "/".toList ++ joinSlash x) := by
      simp [uploadBatch, uploadOperation, Function.comp_def]
    rw [h1]
    refine List.Nodup.map_on ?_ (hnd.sublist (hsub _))
    intro x hx y hy
    exact hkey x ((hsub _).subset hx) y ((hsub _).subset hy)

theorem filterMap_downloadOperation (upper : Char → Char) (destPath : Str)
    (kept : List Object)
    (hdef : ∀ obj ∈ kept, ∃ localPath,
      objectLocalPath upper destPath obj.Key = some localPath) :
    kept.filterMap (downloadOperation upper destPath) =
      kept.map (fun obj =>
        ⟨(objectLocalPath upper destPath obj.Key).getD [], obj.Key, false⟩) := by
  induction kept with
  | nil => simp
  | cons obj kept ih =>
    obtain ⟨localPath, hlp⟩ := hdef obj (List.mem_cons_self _ _)
    have h := ih (fun o ho => hdef o (List.mem_cons_of_mem _ ho))
    simp [List.filterMap_cons, downloadOperation, hlp, h]

theorem Object_ext (a b : Object) (h : a.Key = b.Key) : a = b := by
  cases a; cases b; simp_all

theorem downloadBatch_nodup {σ : Type} (upper : Char → Char) (s : S3Client) (os : OS σ)
    (w : σ) (objects : List Object) (destPath : Str) (destInfo : Option FileInfo)
    (ops : List fileOperation) (hnd : (objects.map (fun obj => obj.Key)).Nodup)
    (h : (downloadMultipleObjects upper s os w objects destPath destInfo).result =
      .ok (.batch ops)) :
    (ops.map (fun op => op.s3Key)).Nodup ∧
    (∀ seg : Str, ToUpper upper syncBucketRoot = "SYNCTHING/".toList → seg ≠ [] → '/' ∉ seg →
      (∀ obj ∈ objects, ∃ rest, obj.Key = "SYNCTHING/".toList ++ seg ++ "/".toList ++ rest ∧
        ∀ e ∈ Split rest, normalName e = true) →
      (ops.map (fun op => op.localPath)).Nodup) := by
  obtain ⟨kept, hsub, hops, hdef⟩ :=
    downloadMultipleObjects_batch upper s os w objects destPath destInfo ops h
  have hdefk : ∀ obj ∈ kept, ∃ localPath,
      objectLocalPath upper destPath obj.Key = some localPath :=
    fun obj ho => hdef obj (hsub.subset ho)
  rw [filterMap_downloadOperation upper destPath kept hdefk] at hops
  have hkept : (kept.map (fun obj => obj.Key)).Nodup := hnd.sublist (hsub.map _)
  constructor
  · rw [hops]
    simpa [Function.comp_def] using hkept
  · intro seg hroot hne hseg hform
    rw [hops]
    simp only [List.map_map, Function.comp_def]
    refine List.Nodup.map_on ?_ (List.Nodup.of_map _ hkept)
    intro a ha b hb hab
    obtain ⟨ra, hka, hra⟩ := hform a (hsub.subset ha)
    obtain ⟨rb, hkb, hrb⟩ := hform b (hsub.subset hb)
    rw [hka, hkb, objectLocalPath_of_key upper hroot destPath seg ra hne hseg,
      objectLocalPath_of_key upper hroot destPath seg rb hne hseg] at hab
    simp only [Option.getD_some] at hab
    have h1 := (cleanElems_Join destPath ra hra).1
    have h2 := (cleanElems_Join destPath rb hrb).1
    rw [hab, h2] at h1
    have h3 : Split ra = Split rb := (List.append_cancel_left h1).symm
    have h4 : ra = rb := by rw [← joinSlash_Split ra, ← joinSlash_Split rb, h3]
    apply Object_ext
    rw [hka, hkb, h4]

/-- C8, as stated, fails for downloads: the keys `SYNCTHING/ABCD/x.txt` and
`SYNCTHING/ABCDE/x.txt` are distinct and both start with the normalised prefix
`SYNCTHING/ABCD`, and the batch of `Sync` has two operations with the local path
`/tmp/out/x.txt`. -/
theorem downloadMultipleObjects_shared_path_counterexample :
    (mainSync Char.toUpper
        (bucketOf ["SYNCTHING/ABCD/x.txt".toList, "SYNCTHING/ABCDE/x.txt".toList] 5 100)
        dirsOnly [] "ABCD".toList "/tmp/out".toList).result =
      .ok (.batch [⟨"/tmp/out/x.txt".toList, "SYNCTHING/ABCD/x.txt".toList, false⟩,
        ⟨"/tmp/out/x.txt".toList, "SYNCTHING/ABCDE/x.txt".toList, false⟩]) ∧
    "SYNCTHING/ABCD/x.txt".toList ≠ "SYNCTHING/ABCDE/x.txt".toList ∧
    HasPrefix "SYNCTHING/ABCD/x.txt".toList
        (ToUpper Char.toUpper (syncBucketRoot ++ "ABCD".toList)) = true ∧
    HasPrefix "SYNCTHING/ABCDE/x.txt".toList
        (ToUpper Char.toUpper (syncBucketRoot ++ "ABCD".toList)) = true ∧
    ¬ (([⟨"/tmp/out/x.txt".toList, "SYNCTHING/ABCD/x.txt".toList, false⟩,
        ⟨"/tmp/out/x.txt".toList, "SYNCTHING/ABCDE/x.txt".toList, false⟩] :
          List fileOperation).map (fun op => op.localPath)).Nodup :=
  ⟨rfl, by decide, rfl, rfl, by decide⟩

/-- C8, amended. The batch `uploadDirectory` builds from a tree in which no
directory lists a name twice has pairwise distinct local paths and pairwise
distinct remote keys. The batch `downloadMultipleObjects` builds from a listing
of pairwise distinct keys has pairwise distinct remote keys, and pairwise
distinct local paths when every listed key is the uppercased root `SYNCTHING/`,
one and the same non-empty segment without a slash, a slash, and a remainder
made of names. -/
theorem planned_operations_disjoint (s : S3Client) :
    (∀ (entries : List (Str × Node)) (sourcePath key : Str) (updateExisting : Bool)
        (plan : UploadPlan),
      validEntries entries = true → distinctEntries entries = true →
      uploadDirectory s (.dir entries) sourcePath key updateExisting = .ok plan →
      (plan.operations.map (fun op => op.localPath)).Nodup ∧
      (plan.operations.map (fun op => op.s3Key)).Nodup) ∧
    (∀ {σ : Type} (upper : Char → Char) (os : OS σ) (w : σ) (objects : List Object)
        (destPath : Str) (destInfo : Option FileInfo) (ops : List fileOperation),
      (objects.map (fun obj => obj.Key)).Nodup →
      (downloadMultipleObjects upper s os w objects destPath destInfo).result =
        .ok (.batch ops) →
      (ops.map (fun op => op.s3Key)).Nodup ∧
      (∀ seg : Str, ToUpper upper syncBucketRoot = "SYNCTHING/".toList →
        seg ≠ [] → '/' ∉ seg →
        (∀ obj ∈ objects, ∃ rest,
          obj.Key = "SYNCTHING/".toList ++ seg ++ "/".toList ++ rest ∧
          ∀ e ∈ Split rest, normalName e = true) →
        (ops.map (fun op => op.localPath)).Nodup)) := by
  constructor
  · intro entries sourcePath key upd plan hvalid hdist h
    obtain ⟨files, hfiles, hops⟩ := uploadDirectory_ok_files s entries sourcePath key upd plan hvalid h
    rw [hops]
    exact uploadBatch_nodup s entries sourcePath key upd files hvalid hdist hfiles
  · intro σ upper os w objects destPath destInfo ops hnd h
    exact downloadBatch_nodup upper s os w objects destPath destInfo ops hnd h

/-- C8, amended, at a tree with `a.txt` and `sub/b.txt`. -/
theorem planned_operations_disjoint_witness :
    uploadDirectory (bucketOf [] 0 0)
        (.dir [("a.txt".toList, .file 3 10),
          ("sub".toList, .dir [("b.txt".toList, .file 4 11)])])
        "/data".toList "K".toList false =
      .ok ⟨[⟨"/data/a.txt".toList, "K/a.txt".toList, false⟩,
        ⟨"/data/sub/b.txt".toList, "K/sub/b.txt".toList, false⟩], []⟩ ∧
    (["/data/a.txt".toList, "/data/sub/b.txt".toList] : List Str).Nodup ∧
    (["K/a.txt".toList, "K/sub/b.txt".toList] : List Str).Nodup :=
  ⟨rfl, (planned_operations_disjoint (bucketOf [] 0 0)).1
    [("a.txt".toList, .file 3 10), ("sub".toList, .dir [("b.txt".toList, .file 4 11)])]
    "/data".toList "K".toList false
    ⟨[⟨"/data/a.txt".toList, "K/a.txt".toList, false⟩,
      ⟨"/data/sub/b.txt".toList, "K/sub/b.txt".toList, false⟩], []⟩
    (by decide) (by decide) rfl⟩

/-! ## The executor: lemmas -/

theorem filterMap_update {β : Type} (f g : Nat → Option β) (j : Nat) (x : β)
    (hfj : f j = none) (hgj : g j = some x) (hne : ∀ i, i ≠ j → g i = f i) :
    ∀ l : List Nat, l.Nodup → j ∈ l → (l.filterMap g).Perm (x :: l.filterMap f) := by
  intro l
  induction l with
  | nil => intro _ hj; simp at hj
  | cons a l ih =>
    intro hnd hj
    have hnd1 := List.nodup_cons.1 hnd
    by_cases haj : a = j
    · subst haj
      have hsame : l.filterMap g = l.filterMap f := by
        apply List.filterMap_congr
        intro i hi
        exact hne i (fun h => hnd1.1 (h ▸ hi))
      simp [List.filterMap_cons, hfj, hgj, hsame]
    · have hjl : j ∈ l := by
        rcases List.mem_cons.1 hj with h | h
        · exact absurd h.symm haj
        · exact h
      have h1 := ih hnd1.2 hjl
      rw [List.filterMap_cons, List.filterMap_cons, hne a haj]
      cases hfa : f a with
      | none => simpa using h1
      | some y =>
        simp only
        exact (List.Perm.cons y h1).trans (List.Perm.swap x y _)

theorem filterMap_same {β : Type} (f g : Nat → Option β) (l : List Nat)
    (h : ∀ i ∈ l, g i = f i) : l.filterMap g = l.filterMap f :=
  List.filterMap_congr h

theorem countP_set (p : Phase → Bool) (a b : Phase) :
    ∀ (l : List Phase) (i : Nat), l[i]? = some b →
      (l.set i a).countP p + (if p b then 1 else 0) = l.countP p + (if p a then 1 else 0) := by
  intro l
  induction l with
  | nil => intro i h; simp at h
  | cons c l ih =>
    intro i h
    cases i with
    | zero =>
      simp only [List.getElem?_cons_zero, Option.some.injEq] at h
      subst h
      simp only [List.set_cons_zero, List.countP_cons]
      omega
    | succ i =>
      simp only [List.getElem?_cons_succ] at h
      have := ih i h
      simp only [List.set_cons_succ, List.countP_cons]
      omega

theorem remaining_set (a b : Phase) :
    ∀ (l : List Phase) (i : Nat), l[i]? = some b →
      ((l.set i a).map Phase.remaining).sum + b.remaining =
        (l.map Phase.remaining).sum + a.remaining := by
  intro l
  induction l with
  | nil => intro i h; simp at h
  | cons c l ih =>
    intro i h
    cases i with
    | zero =>
      simp only [List.getElem?_cons_zero, Option.some.injEq] at h
      subst h
      simp only [List.set_cons_zero, List.map_cons, List.sum_cons]
      omega
    | succ i =>
      simp only [List.getElem?_cons_succ] at h
      have := ih i h
      simp only [List.set_cons_succ, List.map_cons, List.sum_cons]
      omega

theorem getD_set (l : List Phase) (i j : Nat) (a b : Phase) (h : l[i]? = some b) :
    (l.set i a).getD j .waiting = if j = i then a else l.getD j .waiting := by
  have hi : i < l.length := by
    rcases List.getElem?_eq_some.1 h with ⟨hi, _⟩
    exact hi
  simp only [List.getD_eq_getElem?_getD, List.getElem?_set]
  by_cases hji : j = i
  · subst hji
    simp [hi]
  · have : ¬ i = j := fun h => hji h.symm
    simp [hji, this]

theorem Inv_start (operations : List fileOperation)
    (processFunc : Nat → Str → Str → Option Str) :
    Inv operations processFunc (Exec.start operations) := by
  have hget : ∀ i, (List.map (fun _ => Phase.waiting) operations).getD i .waiting = .waiting := by
    intro i
    simp only [List.getD_eq_getElem?_getD, List.getElem?_map]
    cases operations[i]? <;> rfl
  refine ⟨by simp [Exec.start], ?_, by simp [Exec.start], ?_, ?_⟩
  · simp only [Exec.start]
    rw [List.countP_eq_zero.2]
    intro p hp
    obtain ⟨_, _, rfl⟩ := List.mem_map.1 hp
    simp [Phase.holding]
  · simp only [Exec.start, hget, Phase.started]
    simp
  · simp only [Exec.start, hget, Phase.sent]
    simp

theorem phase_change_same {β : Type} (h : Nat → Phase → Option β) (n : Nat)
    (ps : List Phase) (i : Nat) (a b : Phase) (hb : ps[i]? = some b)
    (hsame : h i a = h i b) :
    (List.range n).filterMap (fun j => h j ((ps.set i a).getD j .waiting)) =
      (List.range n).filterMap (fun j => h j (ps.getD j .waiting)) := by
  apply List.filterMap_congr
  intro j _
  rw [getD_set ps i j a b hb]
  by_cases hji : j = i
  · subst hji
    have : ps.getD j .waiting = b := by
      simp [List.getD_eq_getElem?_getD, hb]
    rw [this, if_pos rfl, hsame]
  · rw [if_neg hji]

theorem phase_change_new {β : Type} (h : Nat → Phase → Option β) (n : Nat)
    (ps : List Phase) (i : Nat) (a b : Phase) (x : β) (hb : ps[i]? = some b) (hi : i < n)
    (hold : h i b = none) (hnew : h i a = some x) :
    ((List.range n).filterMap (fun j => h j ((ps.set i a).getD j .waiting))).Perm
      (x :: (List.range n).filterMap (fun j => h j (ps.getD j .waiting))) := by
  have hbD : ps.getD i .waiting = b := by
    simp [List.getD_eq_getElem?_getD, hb]
  apply filterMap_update _ _ i x
  · simp only [hbD, hold]
  · rw [getD_set ps i i a b hb]
    simp [hnew]
  · intro j hj
    rw [getD_set ps i j a b hb]
    simp [hj]
  · exact List.nodup_range n
  · exact List.mem_range.2 hi

theorem step_cases (operations : List fileOperation)
    (processFunc : Nat → Str → Str → Option Str) (st st1 : Exec) (i : Nat)
    (h : step operations processFunc st i = some st1) :
    ∃ op, operations[i]? = some op ∧
      ((st.phases[i]? = some .waiting ∧ st.semaphore < maxConcurrentOperations ∧
          st1 = ⟨st.phases.set i .running, st.semaphore + 1, st.errChan, st.calls ++ [i]⟩) ∨
        (st.phases[i]? = some .running ∧
          st1 = ⟨st.phases.set i .returned, st.semaphore,
            st.errChan ++ (failureOf operations processFunc i).toList, st.calls⟩) ∨
        (st.phases[i]? = some .returned ∧
          st1 = ⟨st.phases.set i .done, st.semaphore - 1, st.errChan, st.calls⟩)) := by
  unfold step at h
  cases hop : operations[i]? with
  | none => simp [hop] at h
  | some op =>
    refine ⟨op, rfl, ?_⟩
    cases hp : st.phases[i]? with
    | none => simp [hop, hp] at h
    | some p =>
      cases p with
      | waiting =>
        simp only [hop, hp] at h
        by_cases hs : st.semaphore < maxConcurrentOperations
        · simp only [hs, if_true, Option.some.injEq] at h
          exact Or.inl ⟨rfl, hs, h.symm⟩
        · simp [hs] at h
      | running =>
        simp only [hop, hp] at h
        refine Or.inr (Or.inl ⟨rfl, ?_⟩)
        cases hpf : processFunc i op.s3Key op.localPath with
        | none =>
          simp only [hpf, Option.some.injEq] at h
          simp [← h, failureOf, hop, hpf]
        | some err =>
          simp only [hpf, Option.some.injEq] at h
          simp [← h, failureOf, hop, hpf]
      | returned =>
        simp only [hop, hp, Option.some.injEq] at h
        exact Or.inr (Or.inr ⟨rfl, h.symm⟩)
      | done => simp [hop, hp] at h

theorem Inv_step (operations : List fileOperation)
    (processFunc : Nat → Str → Str → Option Str) (st st1 : Exec) (i : Nat)
    (hinv : Inv operations processFunc st)
    (h : step operations processFunc st i = some st1) :
    Inv operations processFunc st1 := by
  obtain ⟨op, hop, hcases⟩ := step_cases operations processFunc st st1 i h
  have hi : i < operations.length := by
    rcases List.getElem?_eq_some.1 hop with ⟨hi, _⟩
    exact hi
  obtain ⟨hlen, hsem, hbound, hcalls, herrs⟩ := hinv
  rcases hcases with ⟨hp, hs, rfl⟩ | ⟨hp, rfl⟩ | ⟨hp, rfl⟩
  · have hc := countP_set Phase.holding .running .waiting st.phases i hp
    simp only [Phase.holding] at hc
    refine ⟨by simpa using hlen, ?_, hs, ?_, ?_⟩
    · simp only [hsem]
      simp only [Bool.false_eq_true, if_false, if_true, Nat.add_zero] at hc
      omega
    · have hnew := phase_change_new
        (fun j p => if p.started then some j else none) operations.length st.phases i
        .running .waiting i hp hi (by simp [Phase.started]) (by simp [Phase.started])
      exact (List.perm_append_singleton i st.calls).trans
        ((List.Perm.cons i hcalls).trans hnew.symm)
    · have hsame := phase_change_same
        (fun j p => if p.sent then failureOf operations processFunc j else none)
        operations.length st.phases i .running .waiting hp (by simp [Phase.sent])
      simp only [hsame]
      exact herrs
  · have hc := countP_set Phase.holding .returned .running st.phases i hp
    simp only [Phase.holding] at hc
    refine ⟨by simpa using hlen, ?_, hbound, ?_, ?_⟩
    · simp only [hsem]; omega
    · have hsame := phase_change_same
        (fun j p => if p.started then some j else none) operations.length st.phases i
        .returned .running hp (by simp [Phase.started])
      simp only [hsame]
      exact hcalls
    · cases hf : failureOf operations processFunc i with
      | none =>
        have hsame := phase_change_same
          (fun j p => if p.sent then failureOf operations processFunc j else none)
          operations.length st.phases i .returned .running hp (by simp [Phase.sent, hf])
        simp only [hsame, Option.toList, List.append_nil]
        exact herrs
      | some e =>
        have hnew := phase_change_new
          (fun j p => if p.sent then failureOf operations processFunc j else none)
          operations.length st.phases i .returned .running e hp hi (by simp [Phase.sent])
          (by simp [Phase.sent, hf])
        simp only [Option.toList]
        exact (List.perm_append_singleton e st.errChan).trans
          ((List.Perm.cons e herrs).trans hnew.symm)
  · have hc := countP_set Phase.holding .done .returned st.phases i hp
    simp only [Phase.holding] at hc
    refine ⟨by simpa using hlen, ?_, ?_, ?_, ?_⟩
    · simp only [hsem]
      simp only [Bool.false_eq_true, if_false, if_true, Nat.add_zero] at hc
      omega
    · simp only; omega
    · have hsame := phase_change_same
        (fun j p => if p.started then some j else none) operations.length st.phases i
        .done .returned hp (by simp [Phase.started])
      simp only [hsame]
      exact hcalls
    · have hsame := phase_change_same
        (fun j p => if p.sent then failureOf operations processFunc j else none)
        operations.length st.phases i .done .returned hp (by simp [Phase.sent])
      simp only [hsame]
      exact herrs

theorem Inv_run (operations : List fileOperation)
    (processFunc : Nat → Str → Str → Option Str) (schedule : List Nat) :
    ∀ st : Exec, Inv operations processFunc st →
      Inv operations processFunc (run operations processFunc st schedule) := by
  induction schedule with
  | nil => intro st h; exact h
  | cons i schedule ih =>
    intro st h
    simp only [run]
    cases hs : step operations processFunc st i with
    | none => exact ih st h
    | some st1 => exact ih st1 (Inv_step operations processFunc st st1 i h hs)

theorem run_append (operations : List fileOperation)
    (processFunc : Nat → Str → Str → Option Str) (a b : List Nat) :
    ∀ st : Exec, run operations processFunc st (a ++ b) =
      run operations processFunc (run operations processFunc st a) b := by
  induction a with
  | nil => intro st; rfl
  | cons i a ih =>
    intro st
    simp only [List.cons_append, run]
    cases step operations processFunc st i with
    | none => exact ih st
    | some st1 => exact ih st1

theorem finished_iff (st : Exec) : st.finished = true ↔ ∀ p ∈ st.phases, p = Phase.done := by
  simp [Exec.finished]

theorem remaining_step (operations : List fileOperation)
    (processFunc : Nat → Str → Str → Option Str) (st st1 : Exec) (i : Nat)
    (h : step operations processFunc st i = some st1) :
    st1.remaining + 1 = st.remaining := by
  obtain ⟨op, _, hcases⟩ := step_cases operations processFunc st st1 i h
  rcases hcases with ⟨hp, _, rfl⟩ | ⟨hp, rfl⟩ | ⟨hp, rfl⟩
  · have := remaining_set .running .waiting st.phases i hp
    simp only [Phase.remaining, Exec.remaining] at this ⊢
    omega
  · have := remaining_set .returned .running st.phases i hp
    simp only [Phase.remaining, Exec.remaining] at this ⊢
    omega
  · have := remaining_set .done .returned st.phases i hp
    simp only [Phase.remaining, Exec.remaining] at this ⊢
    omega

theorem exists_step (operations : List fileOperation)
    (processFunc : Nat → Str → Str → Option Str) (st : Exec)
    (hinv : Inv operations processFunc st) (hfin : st.finished = false) :
    ∃ i st1, step operations processFunc st i = some st1 := by
  have hnot : ¬ ∀ p ∈ st.phases, p = Phase.done := by
    rw [← finished_iff, hfin]; simp
  push_neg at hnot
  obtain ⟨p, hp, hpd⟩ := hnot
  have hindex : ∀ q ∈ st.phases, ∃ (j : Nat) (op : fileOperation),
      st.phases[j]? = some q ∧ operations[j]? = some op := by
    intro q hq
    obtain ⟨j, hj⟩ := List.mem_iff_getElem?.1 hq
    have hjlt : j < operations.length := by
      rcases List.getElem?_eq_some.1 hj with ⟨h1, _⟩
      rw [← hinv.len]; exact h1
    exact ⟨j, operations.get ⟨j, hjlt⟩, hj, List.getElem?_eq_getElem hjlt⟩
  by_cases hh : ∃ q ∈ st.phases, q.holding = true
  · obtain ⟨q, hq, hqh⟩ := hh
    obtain ⟨j, op, hj, hop⟩ := hindex q hq
    cases q with
    | waiting => simp [Phase.holding] at hqh
    | done => simp [Phase.holding] at hqh
    | running =>
      cases hpf : processFunc j op.s3Key op.localPath with
      | none => exact ⟨j, Option.isSome_iff_exists.1 (by simp [step, hop, hj, hpf])⟩
      | some e => exact ⟨j, Option.isSome_iff_exists.1 (by simp [step, hop, hj, hpf])⟩
    | returned => exact ⟨j, Option.isSome_iff_exists.1 (by simp [step, hop, hj])⟩
  · push_neg at hh
    have hzero : st.semaphore = 0 := by
      rw [hinv.sem, List.countP_eq_zero]
      intro q hq
      simpa using hh q hq
    obtain ⟨j, op, hj, hop⟩ := hindex p hp
    have hpw : p = .waiting := by
      have := hh p hp
      cases p with
      | waiting => rfl
      | done => exact absurd rfl hpd
      | running => simp [Phase.holding] at this
      | returned => simp [Phase.holding] at this
    subst hpw
    exact ⟨j, Option.isSome_iff_exists.1 (by simp [step, hop, hj, hzero, maxConcurrentOperations])⟩

theorem completes (operations : List fileOperation)
    (processFunc : Nat → Str → Str → Option Str) :
    ∀ (n : Nat) (st : Exec), Inv operations processFunc st → st.remaining = n →
      ∃ more, (run operations processFunc st more).finished = true := by
  intro n
  induction n with
  | zero =>
    intro st _ hrem
    refine ⟨[], ?_⟩
    simp only [run]
    rw [finished_iff]
    intro p hp
    have hz : ∀ x ∈ st.phases.map Phase.remaining, x = 0 :=
      List.sum_eq_zero_iff.1 (by simpa [Exec.remaining] using hrem)
    have := hz p.remaining (List.mem_map_of_mem _ hp)
    cases p <;> simp [Phase.remaining] at this ⊢
  | succ n ih =>
    intro st hinv hrem
    cases hfin : st.finished with
    | true => exact ⟨[], by simpa [run] using hfin⟩
    | false =>
      obtain ⟨i, st1, hstep⟩ := exists_step operations processFunc st hinv hfin
      have hrem1 := remaining_step operations processFunc st st1 i hstep
      obtain ⟨more, hmore⟩ := ih st1 (Inv_step operations processFunc st st1 i hinv hstep)
        (by omega)
      exact ⟨i :: more, by simpa [run, hstep] using hmore⟩

theorem finished_getD (operations : List fileOperation)
    (processFunc : Nat → Str → Str → Option Str) (st : Exec)
    (hinv : Inv operations processFunc st) (hfin : st.finished = true) :
    ∀ i ∈ List.range operations.length, st.phases.getD i .waiting = .done := by
  intro i hi
  have hlt : i < st.phases.length := by
    rw [hinv.len]; exact List.mem_range.1 hi
  rw [List.getD_eq_getElem?_getD, List.getElem?_eq_getElem hlt]
  exact (finished_iff st).1 hfin _ (List.getElem_mem _)

theorem finished_calls (operations : List fileOperation)
    (processFunc : Nat → Str → Str → Option Str) (st : Exec)
    (hinv : Inv operations processFunc st) (hfin : st.finished = true) :
    st.calls.Perm (List.range operations.length) := by
  have hd := finished_getD operations processFunc st hinv hfin
  have h := hinv.calls
  have hsame : (List.range operations.length).filterMap
      (fun i => if (st.phases.getD i .waiting).started then some i else none) =
      (List.range operations.length).filterMap some := by
    apply List.filterMap_congr
    intro i hi
    rw [hd i hi]
    simp [Phase.started]
  rw [hsame, List.filterMap_some] at h
  exact h

theorem finished_errs (operations : List fileOperation)
    (processFunc : Nat → Str → Str → Option Str) (st : Exec)
    (hinv : Inv operations processFunc st) (hfin : st.finished = true) :
    st.errChan.Perm (failures operations processFunc) := by
  have hd := finished_getD operations processFunc st hinv hfin
  have h := hinv.errs
  have hsame : (List.range operations.length).filterMap
      (fun i => if (st.phases.getD i .waiting).sent then failureOf operations processFunc i
        else none) = failures operations processFunc := by
    apply List.filterMap_congr
    intro i hi
    rw [hd i hi]
    simp [Phase.sent]
  rw [hsame] at h
  exact h

theorem failures_eq_nil (operations : List fileOperation)
    (processFunc : Nat → Str → Str → Option Str) :
    failures operations processFunc = [] ↔
      ∀ i op, operations[i]? = some op → processFunc i op.s3Key op.localPath = none := by
  simp only [failures, List.filterMap_eq_nil_iff, List.mem_range]
  constructor
  · intro h i op hop
    have hi : i < operations.length := by
      rcases List.getElem?_eq_some.1 hop with ⟨h1, _⟩
      exact h1
    have := h i hi
    simpa [failureOf, hop] using this
  · intro h i hi
    have hop : operations[i]? = some operations[i] := List.getElem?_eq_getElem hi
    simp [failureOf, hop, h i _ hop]

theorem collect_eq_none (errs : List Str) : collect errs = none ↔ errs = [] := by
  cases errs <;> simp [collect]

theorem formatErrors_eq_intercalate (errs : List Str) :
    formatErrors errs = List.intercalate [' '] errs := by
  induction errs with
  | nil => rfl
  | cons e r ih =>
    cases r with
    | nil => simp [formatErrors, List.intercalate, List.intersperse]
    | cons f r =>
      simp only [formatErrors, ih]
      simp [List.intercalate, List.intersperse]

theorem collect_eq (errs : List Str) :
    collect errs =
      if errs = [] then none
      else some ("multiple errors occurred: [".toList ++ List.intercalate [' '] errs ++
        "]".toList) := by
  cases errs with
  | nil => simp [collect]
  | cons e r =>
    simp only [collect, List.length_cons, gt_iff_lt, Nat.zero_lt_succ, if_true,
      formatErrors_eq_intercalate]
    simp

theorem failures_eq (operations : List fileOperation)
    (processFunc : Nat → Str → Str → Option Str) :
    failures operations processFunc =
      (List.range operations.length).filterMap (fun i =>
        match operations[i]? with
        | none => none
        | some op =>
          (processFunc i op.s3Key op.localPath).map (fun cause =>
            "failed to process ".toList ++ op.localPath ++ ": ".toList ++ cause)) := by
  simp only [failures]
  apply List.filterMap_congr
  intro i _
  simp only [failureOf]
  cases operations[i]? with
  | none => rfl
  | some op => rfl

theorem getElem?_set_same (a b : Phase) :
    ∀ (l : List Phase) (i : Nat), l[i]? = some b → (l.set i a)[i]? = some a := by
  intro l
  induction l with
  | nil => intro i h; simp at h
  | cons c l ih =>
    intro i h
    cases i with
    | zero => simp
    | succ i =>
      simp only [List.getElem?_cons_succ] at h
      simpa using ih i h

theorem step_enabled (operations : List fileOperation)
    (processFunc : Nat → Str → Str → Option Str) (st : Exec) (i : Nat) (p : Phase)
    (hlen : st.phases.length = operations.length)
    (hp : st.phases[i]? = some p) (hnd : p ≠ .done)
    (hw : p = .waiting → st.semaphore < maxConcurrentOperations) :
    ∃ st1, step operations processFunc st i = some st1 := by
  have hi : i < st.phases.length := (List.getElem?_eq_some.1 hp).1
  obtain ⟨op, hop⟩ : ∃ op, operations[i]? = some op :=
    ⟨_, List.getElem?_eq_getElem (hlen ▸ hi)⟩
  apply Option.isSome_iff_exists.1
  cases p with
  | done => exact absurd rfl hnd
  | waiting => simp [step, hop, hp, hw rfl]
  | returned => simp [step, hop, hp]
  | running =>
    cases hpf : processFunc i op.s3Key op.localPath with
    | none => simp [step, hop, hp, hpf]
    | some err => simp [step, hop, hp, hpf]

theorem step_running (operations : List fileOperation)
    (processFunc : Nat → Str → Str → Option Str) (st : Exec) (i : Nat)
    (hlen : st.phases.length = operations.length)
    (hp : st.phases[i]? = some .running) :
    ∃ st1, step operations processFunc st i = some st1 ∧
      st1.phases[i]? = some .returned ∧ st1.semaphore = st.semaphore := by
  obtain ⟨st1, hst1⟩ := step_enabled operations processFunc st i .running hlen hp
    (by simp) (by simp)
  obtain ⟨op, _, hcases⟩ := step_cases operations processFunc st st1 i hst1
  rcases hcases with ⟨h1, _, _⟩ | ⟨_, rfl⟩ | ⟨h1, _⟩
  · rw [hp] at h1; cases h1
  · exact ⟨_, hst1, getElem?_set_same _ _ _ _ hp, rfl⟩
  · rw [hp] at h1; cases h1

theorem step_returned (operations : List fileOperation)
    (processFunc : Nat → Str → Str → Option Str) (st : Exec) (i : Nat)
    (hinv : Inv operations processFunc st)
    (hp : st.phases[i]? = some .returned) :
    ∃ st1, step operations processFunc st i = some st1 ∧
      st1.phases[i]? = some .done ∧ st1.semaphore + 1 = st.semaphore := by
  have hmem : Phase.returned ∈ st.phases := List.mem_iff_getElem?.2 ⟨i, hp⟩
  have hpos : 0 < st.semaphore := by
    rw [hinv.sem]
    exact List.countP_pos_iff.2 ⟨.returned, hmem, rfl⟩
  obtain ⟨st1, hst1⟩ := step_enabled operations processFunc st i .returned hinv.len hp
    (by simp) (by simp)
  obtain ⟨op, _, hcases⟩ := step_cases operations processFunc st st1 i hst1
  rcases hcases with ⟨h1, _, _⟩ | ⟨h1, _⟩ | ⟨_, rfl⟩
  · rw [hp] at h1; cases h1
  · rw [hp] at h1; cases h1
  · refine ⟨_, hst1, getElem?_set_same _ _ _ _ hp, ?_⟩
    simp only
    omega

theorem step_waiting (operations : List fileOperation)
    (processFunc : Nat → Str → Str → Option Str) (st : Exec) (i : Nat)
    (hlen : st.phases.length = operations.length)
    (hp : st.phases[i]? = some .waiting) :
    (st.semaphore < maxConcurrentOperations →
      ∃ st1, step operations processFunc st i = some st1 ∧
        st1.phases[i]? = some .running ∧ st1.semaphore = st.semaphore + 1) ∧
    (st.semaphore = maxConcurrentOperations → step operations processFunc st i = none) := by
  constructor
  · intro hs
    obtain ⟨st1, hst1⟩ := step_enabled operations processFunc st i .waiting hlen hp
      (by simp) (fun _ => hs)
    obtain ⟨op, _, hcases⟩ := step_cases operations processFunc st st1 i hst1
    rcases hcases with ⟨_, _, rfl⟩ | ⟨h1, _⟩ | ⟨h1, _⟩
    · exact ⟨_, hst1, getElem?_set_same _ _ _ _ hp, rfl⟩
    · rw [hp] at h1; cases h1
    · rw [hp] at h1; cases h1
  · intro hs
    have hi : i < st.phases.length := (List.getElem?_eq_some.1 hp).1
    have hop : operations[i]? = some (operations.get ⟨i, hlen ▸ hi⟩) :=
      List.getElem?_eq_getElem (hlen ▸ hi)
    simp [step, hop, hp, hs]

/-! ## The executor: theorems -/

/-- C5. Whatever the batch, the transfer function and the interleaving of the
goroutines: the run can always be continued until `processOperations` returns;
when it returns, the call of the transfer function has been started exactly once
for every operation of the batch; the result is `nil` exactly when no call
failed; and otherwise it is the error
`multiple errors occurred: [e1 e2 ...]` whose entries, in the order the calls
failed, are one `failed to process <localPath>: <cause>` for every operation
whose call failed and nothing else. The empty batch returns `nil`. -/
theorem processOperations_aggregate (operations : List fileOperation)
    (processFunc : Nat → Str → Str → Option Str) :
    (∀ schedule, ∃ more r,
      processOperations operations processFunc (schedule ++ more) = some r) ∧
    (∀ schedule r, processOperations operations processFunc schedule = some r →
      (run operations processFunc (Exec.start operations) schedule).calls.Perm
        (List.range operations.length) ∧
      (r = none ↔
        ∀ i op, operations[i]? = some op → processFunc i op.s3Key op.localPath = none) ∧
      ∃ errs : List Str,
        errs.Perm ((List.range operations.length).filterMap (fun i =>
          match operations[i]? with
          | none => none
          | some op =>
            (processFunc i op.s3Key op.localPath).map (fun cause =>
              "failed to process ".toList ++ op.localPath ++ ": ".toList ++ cause))) ∧
        r = if errs = [] then none
          else some ("multiple errors occurred: [".toList ++ List.intercalate [' '] errs ++
            "]".toList)) ∧
    processOperations [] processFunc [] = some none := by
  refine ⟨?_, ?_, rfl⟩
  · intro schedule
    have hinv := Inv_run operations processFunc schedule _ (Inv_start operations processFunc)
    obtain ⟨more, hmore⟩ := completes operations processFunc _ _ hinv rfl
    refine ⟨more, collect (run operations processFunc (Exec.start operations)
      (schedule ++ more)).errChan, ?_⟩
    simp only [processOperations]
    rw [run_append, hmore]
    simp
  · intro schedule r h
    have hinv := Inv_run operations processFunc schedule _ (Inv_start operations processFunc)
    simp only [processOperations] at h
    cases hfin : (run operations processFunc (Exec.start operations) schedule).finished with
    | false => simp [hfin] at h
    | true =>
      simp only [hfin, if_true, Option.some.injEq] at h
      have hcalls := finished_calls operations processFunc _ hinv hfin
      have herrs := finished_errs operations processFunc _ hinv hfin
      refine ⟨hcalls, ?_, _, failures_eq operations processFunc ▸ herrs, ?_⟩
      · rw [← h, collect_eq_none, ← failures_eq_nil]
        constructor
        · intro h0
          rw [h0] at herrs
          exact List.nil_perm.1 herrs
        · intro h0
          rw [h0] at herrs
          exact List.perm_nil.1 herrs
      · rw [← h, collect_eq]

/-- C5, at a batch of three operations of which the second and the third fail,
the third before the second. -/
theorem processOperations_aggregate_witness :
    processOperations
        [⟨"a".toList, "K/a".toList, false⟩, ⟨"b".toList, "K/b".toList, false⟩,
          ⟨"c".toList, "K/c".toList, false⟩]
        (fun i _ _ => if i = 1 then some "boom".toList
          else if i = 2 then some "bang".toList else none)
        [0, 1, 2, 2, 1, 0, 0, 1, 2] =
      some (some ("multiple errors occurred: " ++
        "[failed to process c: bang failed to process b: boom]").toList) ∧
    (run [⟨"a".toList, "K/a".toList, false⟩, ⟨"b".toList, "K/b".toList, false⟩,
          ⟨"c".toList, "K/c".toList, false⟩]
        (fun i _ _ => if i = 1 then some "boom".toList
          else if i = 2 then some "bang".toList else none)
        (Exec.start [⟨"a".toList, "K/a".toList, false⟩, ⟨"b".toList, "K/b".toList, false⟩,
          ⟨"c".toList, "K/c".toList, false⟩])
        [0, 1, 2, 2, 1, 0, 0, 1, 2]).calls.Perm (List.range 3) ∧
    ∃ errs : List Str,
      errs.Perm ["failed to process b: boom".toList, "failed to process c: bang".toList] ∧
      some ("multiple errors occurred: " ++
          "[failed to process c: bang failed to process b: boom]").toList =
        if errs = [] then none
        else some ("multiple errors occurred: [".toList ++ List.intercalate [' '] errs ++
          "]".toList) :=
  ⟨rfl,
    ((processOperations_aggregate
      [⟨"a".toList, "K/a".toList, false⟩, ⟨"b".toList, "K/b".toList, false⟩,
        ⟨"c".toList, "K/c".toList, false⟩]
      (fun i _ _ => if i = 1 then some "boom".toList
        else if i = 2 then some "bang".toList else none)).2.1
      [0, 1, 2, 2, 1, 0, 0, 1, 2]
      (some ("multiple errors occurred: " ++
        "[failed to process c: bang failed to process b: boom]").toList) rfl).1,
    ((processOperations_aggregate
      [⟨"a".toList, "K/a".toList, false⟩, ⟨"b".toList, "K/b".toList, false⟩,
        ⟨"c".toList, "K/c".toList, false⟩]
      (fun i _ _ => if i = 1 then some "boom".toList
        else if i = 2 then some "bang".toList else none)).2.1
      [0, 1, 2, 2, 1, 0, 0, 1, 2]
      (some ("multiple errors occurred: " ++
        "[failed to process c: bang failed to process b: boom]").toList) rfl).2.2⟩

/-- C9. In every state `processOperations` reaches, for any batch, transfer
function and interleaving: at most `maxConcurrentOperations = 5` calls of the
transfer function are in progress, and the semaphore holds exactly one value
per goroutine that has acquired a slot and not released it, never more than 5.
A waiting goroutine takes a slot only while fewer than 5 are held. A call in
progress returns, with or without an error, to the point of release, the slot
still held; from there the release is always possible and frees exactly that
one slot. Every run can be continued until all goroutines are done, and then
every slot has been released. -/
theorem processOperations_bounded (operations : List fileOperation)
    (processFunc : Nat → Str → Str → Option Str) (schedule : List Nat) :
    maxConcurrentOperations = 5 ∧
    (run operations processFunc (Exec.start operations) schedule).phases.countP
        (fun p => p = Phase.running) ≤ maxConcurrentOperations ∧
    (run operations processFunc (Exec.start operations) schedule).semaphore =
      (run operations processFunc (Exec.start operations) schedule).phases.countP
        Phase.holding ∧
    (run operations processFunc (Exec.start operations) schedule).semaphore ≤
      maxConcurrentOperations ∧
    ((run operations processFunc (Exec.start operations) schedule).finished = true →
      (run operations processFunc (Exec.start operations) schedule).semaphore = 0) ∧
    (∀ i, (run operations processFunc (Exec.start operations) schedule).phases[i]? =
        some Phase.waiting →
      ((run operations processFunc (Exec.start operations) schedule).semaphore <
          maxConcurrentOperations →
        ∃ st1, step operations processFunc
            (run operations processFunc (Exec.start operations) schedule) i = some st1 ∧
          st1.phases[i]? = some Phase.running ∧
          st1.semaphore =
            (run operations processFunc (Exec.start operations) schedule).semaphore + 1) ∧
      ((run operations processFunc (Exec.start operations) schedule).semaphore =
          maxConcurrentOperations →
        step operations processFunc
          (run operations processFunc (Exec.start operations) schedule) i = none)) ∧
    (∀ i, (run operations processFunc (Exec.start operations) schedule).phases[i]? =
        some Phase.running →
      ∃ st1, step operations processFunc
          (run operations processFunc (Exec.start operations) schedule) i = some st1 ∧
        st1.phases[i]? = some Phase.returned ∧
        st1.semaphore =
          (run operations processFunc (Exec.start operations) schedule).semaphore) ∧
    (∀ i, (run operations processFunc (Exec.start operations) schedule).phases[i]? =
        some Phase.returned →
      ∃ st1, step operations processFunc
          (run operations processFunc (Exec.start operations) schedule) i = some st1 ∧
        st1.phases[i]? = some Phase.done ∧
        st1.semaphore + 1 =
          (run operations processFunc (Exec.start operations) schedule).semaphore) ∧
    (∃ more,
      (run operations processFunc (Exec.start operations) (schedule ++ more)).finished =
        true ∧
      (run operations processFunc (Exec.start operations) (schedule ++ more)).semaphore =
        0) := by
  have hinv := Inv_run operations processFunc schedule _ (Inv_start operations processFunc)
  have hzero : ∀ st : Exec, Inv operations processFunc st → st.finished = true →
      st.semaphore = 0 := by
    intro st hst hfin
    rw [hst.sem, List.countP_eq_zero]
    intro p hp
    rw [(finished_iff _).1 hfin p hp]
    simp [Phase.holding]
  refine ⟨rfl, ?_, hinv.sem, hinv.bound, hzero _ hinv, ?_, ?_, ?_, ?_⟩
  · refine le_trans ?_ (hinv.sem ▸ hinv.bound)
    apply List.countP_mono_left
    intro p _ hp
    have : p = Phase.running := by simpa using hp
    rw [this]
    rfl
  · intro i hp
    exact step_waiting operations processFunc _ i hinv.len hp
  · intro i hp
    exact step_running operations processFunc _ i hinv.len hp
  · intro i hp
    exact step_returned operations processFunc _ i hinv hp
  · obtain ⟨more, hmore⟩ := completes operations processFunc _ _ hinv rfl
    refine ⟨more, ?_, ?_⟩
    · rw [run_append]; exact hmore
    · have hinv2 := Inv_run operations processFunc (schedule ++ more) _
        (Inv_start operations processFunc)
      apply hzero _ hinv2
      rw [run_append]; exact hmore

/-- C9, at a batch of seven operations: all scheduled to start, five calls are
in progress and two goroutines wait; once the first call has returned and its
goroutine has released, a sixth starts; run to the end, no slot is held. -/
theorem processOperations_bounded_witness :
    (run (List.replicate 7 ⟨"f".toList, "K/f".toList, false⟩) (fun _ _ _ => none)
        (Exec.start (List.replicate 7 ⟨"f".toList, "K/f".toList, false⟩))
        [0, 1, 2, 3, 4, 5, 6]).phases =
      [.running, .running, .running, .running, .running, .waiting, .waiting] ∧
    (run (List.replicate 7 ⟨"f".toList, "K/f".toList, false⟩) (fun _ _ _ => none)
        (Exec.start (List.replicate 7 ⟨"f".toList, "K/f".toList, false⟩))
        [0, 1, 2, 3, 4, 5, 6]).phases.countP (fun p => p = Phase.running) ≤ 5 ∧
    (run (List.replicate 7 ⟨"f".toList, "K/f".toList, false⟩) (fun _ _ _ => none)
        (Exec.start (List.replicate 7 ⟨"f".toList, "K/f".toList, false⟩))
        [0, 1, 2, 3, 4, 5, 6, 0, 0, 5]).phases =
      [.done, .running, .running, .running, .running, .running, .waiting] ∧
    (run (List.replicate 7 ⟨"f".toList, "K/f".toList, false⟩) (fun _ _ _ => none)
        (Exec.start (List.replicate 7 ⟨"f".toList, "K/f".toList, false⟩))
        [0, 1, 2, 3, 4, 5, 6, 0, 0, 5, 1, 1, 6, 2, 2, 3, 3, 4, 4, 5, 5, 6,
          6]).semaphore = 0 :=
  ⟨rfl, (processOperations_bounded (List.replicate 7 ⟨"f".toList, "K/f".toList, false⟩)
    (fun _ _ _ => none) [0, 1, 2, 3, 4, 5, 6]).2.1, rfl,
    (processOperations_bounded (List.replicate 7 ⟨"f".toList, "K/f".toList, false⟩)
      (fun _ _ _ => none)
      [0, 1, 2, 3, 4, 5, 6, 0, 0, 5, 1, 1, 6, 2, 2, 3, 3, 4, 4, 5, 5, 6, 6]).2.2.2.2.1 rfl⟩

end SyncThing
